import Mathlib

/-!
Formal model of the quops bit-packed serialization library: the bit stream
writer and reader (src/bit.rs), the field model and schema parsing of the
derive crate (field.rs, schema.rs, utils.rs), and interpreters giving the
semantics of the encode and decode routines emitted by the code generator
(encode.rs, decode.rs) for an arbitrary schema field tree.

Machine integers are modeled as Nat (or Int for signed values) with the
wrap-around of the Rust release profile made explicit (`% 2^64`, `% 256`,
masked shift amounts) wherever the source can overflow.  The out-of-range
8-byte loads the reader performs near the end of its input are modeled as
zero-extended loads; no value the reader hands back from within the input
depends on those padding bytes.
-/

namespace Quops

/-- Bit length of `n` as a `w`-bit unsigned integer: for `n < 2^w` this is
exactly the `w - n.leading_zeros()` computed throughout field.rs
(`32 - x.leading_zeros()`, `8 - v.leading_zeros()`) and encode.rs
(`64 - v.leading_zeros()`). -/
def bitLen : Nat → Nat → Nat
  | 0, _ => 0
  | w+1, n => if n < 2^w then bitLen w n else w + 1

theorem bitLen_le (w n : Nat) : bitLen w n ≤ w := by
  induction w with
  | zero => simp [bitLen]
  | succ w ih =>
    simp only [bitLen]
    split
    · exact Nat.le_succ_of_le ih
    · exact Nat.le_refl _

theorem lt_two_pow_bitLen {w n : Nat} (h : n < 2^w) : n < 2^(bitLen w n) := by
  induction w with
  | zero => simpa [bitLen] using h
  | succ w ih =>
    simp only [bitLen]
    split
    · exact ih (by assumption)
    · exact h

theorem bitLen_le_iff {w n : Nat} (h : n < 2^w) (m : Nat) :
    bitLen w n ≤ m ↔ n < 2^m := by
  induction w with
  | zero =>
    have : n = 0 := by omega
    subst this
    simp only [bitLen]
    constructor
    · intro _
      exact Nat.two_pow_pos m
    · intro _
      omega
  | succ w ih =>
    simp only [bitLen]
    split
    · exact ih (by assumption)
    · constructor
      · intro hm
        calc n < 2^(w+1) := h
        _ ≤ 2^m := Nat.pow_le_pow_right (by omega) hm
      · intro hm
        by_contra hlt
        have hmw : m ≤ w := by omega
        have : 2^m ≤ 2^w := Nat.pow_le_pow_right (by omega) hmw
        omega

theorem bitLen_pos {w n : Nat} (h : n < 2^w) (hn : 1 ≤ n) : 1 ≤ bitLen w n := by
  by_contra hc
  have h0 : bitLen w n ≤ 0 := by omega
  have := (bitLen_le_iff h 0).mp h0
  simp at this
  omega

/-- Value of a byte sequence read as a little-endian natural number (byte 0
is least significant).  This is the number whose binary expansion is the
LSB-first bit stream of the byte sequence. -/
def bytesToNat : List Nat → Nat
  | [] => 0
  | b :: bs => b + 256 * bytesToNat bs

theorem bytesToNat_append (xs ys : List Nat) :
    bytesToNat (xs ++ ys) = bytesToNat xs + 256^xs.length * bytesToNat ys := by
  induction xs with
  | nil => simp [bytesToNat]
  | cons b bs ih =>
    simp [bytesToNat, ih, List.length_cons, Nat.pow_succ]
    ring

theorem bytesToNat_lt {xs : List Nat} (h : ∀ b ∈ xs, b < 256) :
    bytesToNat xs < 256^xs.length := by
  induction xs with
  | nil => simp [bytesToNat]
  | cons b bs ih =>
    have hb : b < 256 := h b (by simp)
    have hbs := ih (fun x hx => h x (by simp [hx]))
    simp only [bytesToNat, List.length_cons, Nat.pow_succ]
    calc b + 256 * bytesToNat bs < 256 + 256 * bytesToNat bs := by omega
    _ ≤ 256 * 256^bs.length := by
        have : 1 + bytesToNat bs ≤ 256^bs.length := by omega
        calc 256 + 256 * bytesToNat bs = 256 * (1 + bytesToNat bs) := by ring
        _ ≤ 256 * 256^bs.length := Nat.mul_le_mul_left _ this
    _ = 256^bs.length * 256 := by ring

theorem pow256_eq_pow2 (k : Nat) : (256:Nat)^k = 2^(8*k) := by
  have : (256:Nat) = 2^8 := by norm_num
  rw [this, ← Nat.pow_mul]

/-- Little-endian byte decomposition: the `k` low bytes of `v`, least
significant first.  Models the byte image left in memory by the 64-bit
stores (`_mm_storeu_si64`) of the writer, of which `k` bytes are exposed. -/
def leBytes (v : Nat) : Nat → List Nat
  | 0 => []
  | k+1 => v % 256 :: leBytes (v / 256) k

theorem leBytes_length (v k : Nat) : (leBytes v k).length = k := by
  induction k generalizing v with
  | zero => rfl
  | succ k ih => simp [leBytes, ih]

theorem leBytes_lt (v k : Nat) : ∀ b ∈ leBytes v k, b < 256 := by
  induction k generalizing v with
  | zero => simp [leBytes]
  | succ k ih =>
    intro b hb
    simp only [leBytes, List.mem_cons] at hb
    rcases hb with h | h
    · omega
    · exact ih _ b h

theorem bytesToNat_leBytes (v k : Nat) : bytesToNat (leBytes v k) = v % 256^k := by
  induction k generalizing v with
  | zero => simp [leBytes, bytesToNat, Nat.mod_one]
  | succ k ih =>
    simp only [leBytes, bytesToNat, ih, Nat.pow_succ]
    rw [Nat.mul_comm (256^k) 256, Nat.mod_mul]

theorem mod_pow_div (a k m : Nat) :
    (a % 2^(k+m)) / 2^k = (a / 2^k) % 2^m := by
  rw [Nat.pow_add, Nat.mod_mul, Nat.add_mul_div_left _ _ (Nat.pos_pow_of_pos k (by omega)),
    Nat.div_eq_of_lt (Nat.mod_lt _ (Nat.pos_pow_of_pos k (by omega)))]
  omega

theorem mod_pow_mod (a k m : Nat) (h : k ≤ m) : (a % 2^m) % 2^k = a % 2^k :=
  Nat.mod_mod_of_dvd a (Nat.pow_dvd_pow 2 h)

theorem mod_pow_div_sub (a k n : Nat) (h : k ≤ n) :
    (a % 2^n) / 2^k = (a / 2^k) % 2^(n-k) := by
  conv_lhs => rw [show n = k + (n-k) from by omega]
  exact mod_pow_div a k (n-k)

theorem or_shift_add {a b n : Nat} (ha : a < 2^n) :
    a ||| b <<< n = a + b * 2^n := by
  rw [Nat.shiftLeft_eq, Nat.lor_comm, Nat.mul_comm b (2^n), ← Nat.mul_add_lt_is_or ha]
  omega

/-! ### BitWriter (src/bit.rs) -/

/-- Error type of `BitWriter::write` (the message strings of the source are
dropped). -/
inductive WriteError
  | valueTooLarge
deriving DecidableEq, Repr

/-- State of `BitWriter`: the flushed output bytes, the 64-bit staging
buffer and its fill counter.  The source also caches `bytes_written`, which
always equals the byte vector length and is therefore omitted. -/
structure BitWriter where
  bytes : List Nat
  buffer : Nat
  buffer_filled : Nat
deriving DecidableEq, Repr

def BitWriter.with_capacity (_capacity : Nat) : BitWriter :=
  ⟨[], 0, 0⟩

/-- `BitWriter::write`.  The `u64` shift/or arithmetic cannot overflow on
the paths the source reaches (shift amounts stay below 64 there), so plain
`Nat` arithmetic is exact. -/
def BitWriter.write (w : BitWriter) (value count : Nat) : Except WriteError BitWriter :=
  if count > 64 ∨ (count < 64 ∧ value ≥ 1 <<< count) then
    .error .valueTooLarge
  else if w.buffer_filled + count > 64 then
    let available_space := 64 - w.buffer_filled
    let buffer1 :=
      if available_space > 0 then
        w.buffer ||| (value &&& (1 <<< available_space - 1)) <<< w.buffer_filled
      else
        w.buffer
    .ok ⟨w.bytes ++ leBytes buffer1 8, value >>> available_space, count - available_space⟩
  else
    .ok ⟨w.bytes, w.buffer ||| value <<< w.buffer_filled, w.buffer_filled + count⟩

/-- `BitWriter::into_bytes`: expose `⌈buffer_filled/8⌉` further bytes of the
staging buffer after the flushed bytes. -/
def BitWriter.into_bytes (w : BitWriter) : List Nat :=
  w.bytes ++ leBytes w.buffer ((w.buffer_filled + 7) / 8)

/-- Writer invariant: fill counter within the staging width, staged bits
confined to the low `buffer_filled` bits, flushed output is bytes. -/
def BitWriter.WF (w : BitWriter) : Prop :=
  w.buffer_filled ≤ 64 ∧ w.buffer < 2^w.buffer_filled ∧ ∀ b ∈ w.bytes, b < 256

/-- Total number of bits held by the writer (flushed plus staged). -/
def BitWriter.wLen (w : BitWriter) : Nat :=
  8 * w.bytes.length + w.buffer_filled

/-- The bit stream held by the writer, as the natural number whose LSB-first
binary expansion lists the bits in write order. -/
def BitWriter.wVal (w : BitWriter) : Nat :=
  bytesToNat w.bytes + 256^w.bytes.length * w.buffer

theorem BitWriter.with_capacity_WF (c : Nat) : (BitWriter.with_capacity c).WF := by
  refine ⟨by simp [with_capacity], by simp [with_capacity], by simp [with_capacity]⟩

theorem BitWriter.wVal_lt {w : BitWriter} (hwf : w.WF) : w.wVal < 2^w.wLen := by
  obtain ⟨h64, hbuf, hbytes⟩ := hwf
  have h1 : bytesToNat w.bytes < 256^w.bytes.length := bytesToNat_lt hbytes
  have h2 : 256^w.bytes.length * (w.buffer + 1) ≤ 256^w.bytes.length * 2^w.buffer_filled :=
    Nat.mul_le_mul_left _ (by omega)
  simp only [wVal, wLen, pow256_eq_pow2, ← Nat.pow_add] at *
  nlinarith [Nat.two_pow_pos (8 * w.bytes.length)]

theorem wval_flush_eq (L f a buf v : Nat) (hfa : f + a = 64) :
    (2:Nat)^(8*L) * (buf + (v % 2^a) * 2^f) + 256^(L+8) * (v / 2^a)
      = 2^(8*L) * buf + v * 2^(8*L + f) := by
  have h : v % 2^a + 2^a * (v / 2^a) = v := Nat.mod_add_div v (2^a)
  have h256 : (256:Nat)^(L+8) = 2^(8*L) * 2^f * 2^a := by
    rw [pow256_eq_pow2, ← Nat.pow_add, ← Nat.pow_add]
    congr 1
    omega
  have hp : (2:Nat)^(8*L + f) = 2^(8*L) * 2^f := by rw [Nat.pow_add]
  rw [h256, hp]
  calc (2:Nat)^(8*L) * (buf + (v % 2^a) * 2^f) + 2^(8*L) * 2^f * 2^a * (v / 2^a)
      = 2^(8*L) * buf + (v % 2^a + 2^a * (v / 2^a)) * (2^(8*L) * 2^f) := by ring
  _ = 2^(8*L) * buf + v * (2^(8*L) * 2^f) := by rw [h]

/-- `BitWriter::write` on a valid input: the call succeeds, appends `count`
bits holding `value` to the bit stream, and flushes 8 bytes exactly when the
staging buffer would overflow. -/
theorem BitWriter.write_ok {w : BitWriter} {value count : Nat} (hwf : w.WF)
    (hc : count ≤ 64) (hv : value < 2^count) :
    ∃ w', w.write value count = .ok w' ∧ w'.WF ∧
      w'.wVal = w.wVal + value * 2^w.wLen ∧
      w'.wLen = w.wLen + count ∧
      (w.buffer_filled + count ≤ 64 →
        w'.bytes = w.bytes ∧
        w'.buffer = w.buffer ||| value <<< w.buffer_filled ∧
        w'.buffer_filled = w.buffer_filled + count) ∧
      (w.buffer_filled + count > 64 →
        w'.bytes.length = w.bytes.length + 8 ∧
        w'.buffer = value >>> (64 - w.buffer_filled) ∧
        w'.buffer_filled = count - (64 - w.buffer_filled)) := by
  obtain ⟨h64, hbuf, hbytes⟩ := hwf
  have hnoerr : ¬(count > 64 ∨ (count < 64 ∧ value ≥ 1 <<< count)) := by
    rw [Nat.shiftLeft_eq, Nat.one_mul]
    omega
  by_cases hflush : w.buffer_filled + count > 64
  · -- flush branch
    have hfpos : 1 ≤ w.buffer_filled := by omega
    set a := 64 - w.buffer_filled with ha
    have hfa : w.buffer_filled + a = 64 := by omega
    have hca : a < count := by omega
    have hmask : value &&& 1 <<< a - 1 = value % 2^a := by
      rw [Nat.shiftLeft_eq, Nat.one_mul, Nat.and_pow_two_sub_one_eq_mod]
    by_cases hz : 0 < a
    · set B := w.buffer + (value % 2^a) * 2^w.buffer_filled with hB
      have hor : w.buffer ||| (value % 2^a) <<< w.buffer_filled = B := or_shift_add hbuf
      have hBlt : B < 2^64 := by
        have hm : value % 2^a < 2^a := Nat.mod_lt _ (Nat.two_pow_pos a)
        have h1 : (value % 2^a + 1) * 2^w.buffer_filled ≤ 2^a * 2^w.buffer_filled :=
          Nat.mul_le_mul_right _ (by omega)
        have hpow : 2^a * 2^w.buffer_filled = 2^64 := by
          rw [← Nat.pow_add]
          congr 1
          omega
        have h2 : (value % 2^a + 1) * 2^w.buffer_filled
            = value % 2^a * 2^w.buffer_filled + 2^w.buffer_filled := by ring
        omega
      have hcall : w.write value count =
          .ok ⟨w.bytes ++ leBytes B 8, value >>> a, count - a⟩ := by
        simp only [write]
        rw [if_neg hnoerr, if_pos hflush, if_pos (by omega : 64 - w.buffer_filled > 0)]
        rw [show 64 - w.buffer_filled = a from rfl, hmask, hor]
      refine ⟨_, hcall, ?_, ?_, ?_, fun h => absurd hflush (by omega), fun _ => ?_⟩
      · refine ⟨?_, ?_, ?_⟩
        · show count - a ≤ 64
          omega
        · show value >>> a < 2^(count - a)
          rw [Nat.shiftRight_eq_div_pow]
          have : value < 2^a * 2^(count - a) := by
            rw [← Nat.pow_add, show a + (count - a) = count by omega]
            exact hv
          exact Nat.div_lt_of_lt_mul (by omega)
        · show ∀ b ∈ w.bytes ++ leBytes B 8, b < 256
          intro b hb
          rcases List.mem_append.mp hb with h | h
          · exact hbytes b h
          · exact leBytes_lt _ _ b h
      · show bytesToNat (w.bytes ++ leBytes B 8)
            + 256^(w.bytes ++ leBytes B 8).length * (value >>> a)
            = w.wVal + value * 2^w.wLen
        rw [bytesToNat_append, bytesToNat_leBytes, List.length_append, leBytes_length,
          Nat.shiftRight_eq_div_pow]
        have hBmod : B % 256^8 = B := by
          rw [Nat.mod_eq_of_lt]
          rw [pow256_eq_pow2]
          exact hBlt
        rw [hBmod, hB]
        show bytesToNat w.bytes + 256^w.bytes.length
            * (w.buffer + value % 2^a * 2^w.buffer_filled)
            + 256^(w.bytes.length + 8) * (value / 2^a)
            = w.wVal + value * 2^w.wLen
        rw [BitWriter.wVal, BitWriter.wLen, pow256_eq_pow2, pow256_eq_pow2]
        have := wval_flush_eq w.bytes.length w.buffer_filled a w.buffer value (by omega)
        rw [pow256_eq_pow2] at this
    -- hmm pow256 of (L+8) already rewritten; adjust
        omega
      · show 8 * (w.bytes ++ leBytes B 8).length + (count - a) = w.wLen + count
        rw [List.length_append, leBytes_length, BitWriter.wLen]
        omega
      · refine ⟨?_, rfl, rfl⟩
        show (w.bytes ++ leBytes B 8).length = w.bytes.length + 8
        rw [List.length_append, leBytes_length]
    · -- available_space = 0, buffer_filled = 64
      have ha0 : a = 0 := by omega
      have hf64 : w.buffer_filled = 64 := by omega
      have hcall : w.write value count =
          .ok ⟨w.bytes ++ leBytes w.buffer 8, value >>> a, count - a⟩ := by
        simp only [write]
        rw [if_neg hnoerr, if_pos hflush, if_neg (by omega : ¬ 64 - w.buffer_filled > 0)]
      have hbufmod : w.buffer % 256^8 = w.buffer := by
        rw [Nat.mod_eq_of_lt]
        rw [pow256_eq_pow2]
        calc w.buffer < 2^w.buffer_filled := hbuf
        _ ≤ 2^64 := Nat.pow_le_pow_right (by omega) (by omega)
      refine ⟨_, hcall, ?_, ?_, ?_, fun h => absurd hflush (by omega), fun _ => ?_⟩
      · refine ⟨?_, ?_, ?_⟩
        · show count - a ≤ 64
          omega
        · show value >>> a < 2^(count - a)
          rw [ha0, Nat.shiftRight_eq_div_pow]
          simpa using hv
        · show ∀ b ∈ w.bytes ++ leBytes w.buffer 8, b < 256
          intro b hb
          rcases List.mem_append.mp hb with h | h
          · exact hbytes b h
          · exact leBytes_lt _ _ b h
      · show bytesToNat (w.bytes ++ leBytes w.buffer 8)
            + 256^(w.bytes ++ leBytes w.buffer 8).length * (value >>> a)
            = w.wVal + value * 2^w.wLen
        rw [bytesToNat_append, bytesToNat_leBytes, List.length_append, leBytes_length,
          hbufmod, ha0, Nat.shiftRight_eq_div_pow]
        simp only [Nat.pow_zero, Nat.div_one]
        rw [BitWriter.wVal, BitWriter.wLen, hf64]
        have h256 : (256:Nat)^(w.bytes.length + 8) = 2^(8*w.bytes.length + 64) := by
          rw [pow256_eq_pow2]
          congr 1
        rw [h256]
        ring
      · show 8 * (w.bytes ++ leBytes w.buffer 8).length + (count - a) = w.wLen + count
        rw [List.length_append, leBytes_length, BitWriter.wLen]
        omega
      · refine ⟨?_, rfl, rfl⟩
        show (w.bytes ++ leBytes w.buffer 8).length = w.bytes.length + 8
        rw [List.length_append, leBytes_length]
  · -- no flush
    have hor : w.buffer ||| value <<< w.buffer_filled
        = w.buffer + value * 2^w.buffer_filled := or_shift_add hbuf
    have hcall : w.write value count =
        .ok ⟨w.bytes, w.buffer ||| value <<< w.buffer_filled, w.buffer_filled + count⟩ := by
      simp only [write]
      rw [if_neg hnoerr, if_neg hflush]
    refine ⟨_, hcall, ?_, ?_, ?_, fun _ => ⟨rfl, rfl, rfl⟩, fun h => absurd h hflush⟩
    · refine ⟨?_, ?_, hbytes⟩
      · show w.buffer_filled + count ≤ 64
        omega
      show w.buffer ||| value <<< w.buffer_filled < 2^(w.buffer_filled + count)
      rw [hor]
      have h1 : (value + 1) * 2^w.buffer_filled ≤ 2^count * 2^w.buffer_filled :=
        Nat.mul_le_mul_right _ (by omega)
      rw [← Nat.pow_add] at h1
      rw [show count + w.buffer_filled = w.buffer_filled + count from by omega] at h1
      nlinarith [Nat.two_pow_pos w.buffer_filled]
    · show bytesToNat w.bytes + 256^w.bytes.length * (w.buffer ||| value <<< w.buffer_filled)
          = w.wVal + value * 2^w.wLen
      rw [hor, BitWriter.wVal, BitWriter.wLen, pow256_eq_pow2, Nat.pow_add]
      ring
    · show 8 * w.bytes.length + (w.buffer_filled + count) = w.wLen + count
      rw [BitWriter.wLen]
      omega

/-- `BitWriter::into_bytes` preserves the bit stream: the output bytes are
the flushed bytes plus `⌈buffer_filled/8⌉` staging bytes, their little-endian
value is the writer's bit stream, and the padding bits above `wLen` are
zero. -/
theorem BitWriter.into_bytes_spec {w : BitWriter} (hwf : w.WF) :
    bytesToNat w.into_bytes = w.wVal ∧
    (∀ b ∈ w.into_bytes, b < 256) ∧
    w.into_bytes.length = w.bytes.length + (w.buffer_filled + 7) / 8 ∧
    w.wLen ≤ 8 * w.into_bytes.length := by
  obtain ⟨h64, hbuf, hbytes⟩ := hwf
  have hk : w.buffer_filled ≤ 8 * ((w.buffer_filled + 7) / 8) := by omega
  have hmod : w.buffer % 256^((w.buffer_filled + 7) / 8) = w.buffer := by
    rw [Nat.mod_eq_of_lt]
    rw [pow256_eq_pow2]
    calc w.buffer < 2^w.buffer_filled := hbuf
    _ ≤ 2^(8 * ((w.buffer_filled + 7) / 8)) := Nat.pow_le_pow_right (by omega) hk
  refine ⟨?_, ?_, ?_, ?_⟩
  · simp [into_bytes, bytesToNat_append, bytesToNat_leBytes, hmod, wVal]
  · intro b hb
    simp only [into_bytes, List.mem_append] at hb
    rcases hb with h | h
    · exact hbytes b h
    · exact leBytes_lt _ _ b h
  · simp [into_bytes, List.length_append, leBytes_length]
  · simp only [into_bytes, wLen, List.length_append, leBytes_length]
    omega

/-! ### BitReader (src/bit.rs) -/

/-- Error type of `BitReader::read`.  The live `read` never constructs
`invalidBitCount`; the variant exists in the source error enum. -/
inductive ReadError
  | notEnoughBits
  | invalidBitCount
deriving DecidableEq, Repr

/-- State of `BitReader`: input bytes, global bit cursor, 128-bit staging
buffer with its fill counter, and the index of the next byte to load.  The
cached `bits` field of the source always equals `8 * bytes.length` and is
computed on the fly. -/
structure BitReader where
  bytes : List Nat
  bit_position : Nat
  buffer : Nat
  filled : Nat
  byte_idx : Nat
deriving DecidableEq, Repr

def BitReader.new (bytes : List Nat) : BitReader :=
  ⟨bytes, 0, 0, 0, 0⟩

/-- Little-endian load of `k` bytes starting at `idx`; bytes past the end of
the list read as zero (the source issues an unchecked 8-byte load there). -/
def loadLE (bytes : List Nat) (idx : Nat) : Nat → Nat
  | 0 => 0
  | k+1 => bytes.getD idx 0 + 256 * loadLE bytes (idx+1) k

/-- The unchecked 8-byte `_mm_loadu_si64` of the reader. -/
def loadLE8 (bytes : List Nat) (idx : Nat) : Nat :=
  loadLE bytes idx 8

/-- The mask `(((1u64 << (count - 1)) - 1) << 1) + 1` as computed by a
release build: `count - 1` wraps as a `u8` and both shift amounts are
masked, so `count = 0` yields the all-ones mask instead of `0`. -/
def rustMaskU64 (count : Nat) : Nat :=
  ((1 <<< ((count + 255) % 256 % 64) - 1) <<< 1) % 2^64 + 1

/-- `BitReader::read` under release-profile semantics: no `count > 64`
check is performed (the source comments that generated call sites keep
`count ≤ 64`), `u8` subtraction wraps, and shift amounts are masked. -/
def BitReader.read (r : BitReader) (count : Nat) : Except ReadError (Nat × BitReader) :=
  if count > 8 * r.bytes.length - r.bit_position then
    .error .notEnoughBits
  else
    match (if r.filled < count then
        (r.buffer ||| (loadLE8 r.bytes r.byte_idx <<< (r.filled % 128)) % 2^128,
          (r.filled + 64) % 256, r.byte_idx + 8)
      else (r.buffer, r.filled, r.byte_idx)) with
    | (buf, fl, bi) =>
      .ok (buf &&& rustMaskU64 count,
        ⟨r.bytes, r.bit_position + count, buf >>> (count % 128),
          (fl + 256 - count % 256) % 256, bi⟩)

/-- Reader invariant, relative to the little-endian value `N` of the input:
the staging buffer holds exactly the next `filled` bits of the stream, the
load cursor sits `filled` bits ahead of the bit cursor, and the cursor is in
range. -/
def BitReader.RWF (r : BitReader) : Prop :=
  r.buffer = (bytesToNat r.bytes / 2^r.bit_position) % 2^r.filled ∧
  8 * r.byte_idx = r.bit_position + r.filled ∧
  r.filled ≤ 127 ∧
  r.bit_position ≤ 8 * r.bytes.length

theorem BitReader.new_RWF (bytes : List Nat) : (BitReader.new bytes).RWF := by
  refine ⟨by simp [new, Nat.mod_one], by simp [new], by simp [new], by simp [new]⟩

theorem rustMaskU64_eq {count : Nat} (h1 : 1 ≤ count) (h64 : count ≤ 64) :
    rustMaskU64 count = 2^count - 1 := by
  have hm : (count + 255) % 256 % 64 = count - 1 := by omega
  rw [rustMaskU64, hm, Nat.shiftLeft_eq, Nat.shiftLeft_eq, Nat.one_mul]
  have hpow : (2:Nat)^(count-1) * 2 = 2^count := by
    rw [← Nat.pow_succ]
    congr 1
    omega
  have hle : (2:Nat)^count ≤ 2^64 := Nat.pow_le_pow_right (by omega) h64
  have hpos : (1:Nat) ≤ 2^(count-1) := Nat.one_le_two_pow
  rw [Nat.mod_eq_of_lt (by omega)]
  omega

theorem loadLE_nil (idx k : Nat) : loadLE [] idx k = 0 := by
  induction k generalizing idx with
  | zero => rfl
  | succ k ih => simp [loadLE, ih]

theorem loadLE_cons (b : Nat) (bs : List Nat) (idx k : Nat) :
    loadLE (b :: bs) (idx + 1) k = loadLE bs idx k := by
  induction k generalizing idx with
  | zero => rfl
  | succ k ih =>
    simp only [loadLE, List.getD_cons_succ]
    rw [ih]

theorem loadLE_eq {bytes : List Nat} (h : ∀ b ∈ bytes, b < 256) (idx k : Nat) :
    loadLE bytes idx k = bytesToNat bytes / 2^(8 * idx) % 2^(8 * k) := by
  induction idx generalizing bytes with
  | zero =>
    induction k generalizing bytes with
    | zero => simp [loadLE, Nat.mod_one]
    | succ k ihk =>
      cases bytes with
      | nil => simp [loadLE, loadLE_nil, bytesToNat]
      | cons b bs =>
        have hb : b < 256 := h b (by simp)
        have hbs : ∀ x ∈ bs, x < 256 := fun x hx => h x (by simp [hx])
        show b + 256 * loadLE (b :: bs) 1 k = _
        rw [show (1:Nat) = 0 + 1 from rfl, loadLE_cons, ihk hbs]
        show b + 256 * (bytesToNat bs / 2^(8*0) % 2^(8*k))
            = bytesToNat (b :: bs) / 2^(8*0) % 2^(8*(k+1))
        simp only [Nat.mul_zero, Nat.pow_zero, Nat.div_one]
        show b + 256 * (bytesToNat bs % 2^(8*k)) = bytesToNat (b :: bs) % 2^(8*(k+1))
        have hsplit : (2:Nat)^(8*(k+1)) = 256 * 2^(8*k) := by
          rw [show 8*(k+1) = 8 + 8*k from by omega, Nat.pow_add]
        rw [hsplit, Nat.mod_mul]
        show b + 256 * (bytesToNat bs % 2^(8*k))
            = bytesToNat (b :: bs) % 256 + 256 * (bytesToNat (b :: bs) / 256 % 2^(8*k))
        have h1 : bytesToNat (b :: bs) % 256 = b := by
          show (b + 256 * bytesToNat bs) % 256 = b
          rw [Nat.add_mul_mod_self_left, Nat.mod_eq_of_lt hb]
        have h2 : bytesToNat (b :: bs) / 256 = bytesToNat bs := by
          show (b + 256 * bytesToNat bs) / 256 = bytesToNat bs
          rw [Nat.add_mul_div_left _ _ (by omega : (0:Nat) < 256), Nat.div_eq_of_lt hb]
          omega
        rw [h1, h2]
  | succ i ih =>
    cases bytes with
    | nil => simp [loadLE_nil, bytesToNat]
    | cons b bs =>
      have hb : b < 256 := h b (by simp)
      have hbs : ∀ x ∈ bs, x < 256 := fun x hx => h x (by simp [hx])
      rw [loadLE_cons, ih hbs]
      have h2 : bytesToNat (b :: bs) / 2^(8*(i+1)) = bytesToNat bs / 2^(8*i) := by
        show (b + 256 * bytesToNat bs) / 2^(8*(i+1)) = _
        rw [show 8*(i+1) = 8 + 8*i from by omega, Nat.pow_add, ← Nat.div_div_eq_div_mul]
        congr 1
        show (b + 256 * bytesToNat bs) / 2^8 = bytesToNat bs
        norm_num
        rw [Nat.add_mul_div_left _ _ (by omega : (0:Nat) < 256), Nat.div_eq_of_lt hb]
        omega
      rw [h2]

theorem loadLE8_eq {bytes : List Nat} (h : ∀ b ∈ bytes, b < 256) (idx : Nat) :
    loadLE8 bytes idx = bytesToNat bytes / 2^(8 * idx) % 2^64 :=
  loadLE_eq h idx 8

/-- `BitReader::read` fails exactly when fewer than `count` bits remain. -/
theorem BitReader.read_err {r : BitReader} {count : Nat}
    (h : 8 * r.bytes.length - r.bit_position < count) :
    r.read count = .error .notEnoughBits := by
  simp only [read, if_pos (by omega : count > 8 * r.bytes.length - r.bit_position)]

/-- The live `BitReader::read` never returns the `InvalidBitCount` error. -/
theorem BitReader.read_ne_invalid (r : BitReader) (count : Nat) :
    r.read count ≠ .error .invalidBitCount := by
  simp only [read]
  split
  · simp
  · simp

/-- `BitReader::read` with `1 ≤ count ≤ 64` and enough input: returns the
next `count` bits of the stream and preserves the invariant. -/
theorem BitReader.read_ok {r : BitReader} {count : Nat}
    (hb : ∀ b ∈ r.bytes, b < 256) (hwf : r.RWF)
    (h1 : 1 ≤ count) (h64 : count ≤ 64)
    (hav : r.bit_position + count ≤ 8 * r.bytes.length) :
    ∃ r', r.read count
        = .ok (bytesToNat r.bytes / 2^r.bit_position % 2^count, r') ∧
      r'.RWF ∧ r'.bytes = r.bytes ∧ r'.bit_position = r.bit_position + count ∧
      r'.filled = (if r.filled < count then r.filled + 64 else r.filled) - count := by
  obtain ⟨hbuf, hidx, hfill, hpos⟩ := hwf
  have hmask := rustMaskU64_eq h1 h64
  have hnoerr : ¬ count > 8 * r.bytes.length - r.bit_position := by omega
  set N := bytesToNat r.bytes with hN
  by_cases hrefill : r.filled < count
  · -- refill branch
    have hload : loadLE8 r.bytes r.byte_idx = N / 2^(r.bit_position + r.filled) % 2^64 := by
      rw [loadLE8_eq hb, ← hidx]
    have hshift : (loadLE8 r.bytes r.byte_idx <<< (r.filled % 128)) % 2^128
        = (N / 2^(r.bit_position + r.filled) % 2^64) * 2^r.filled := by
      rw [hload, Nat.mod_eq_of_lt (by omega : r.filled < 128), Nat.shiftLeft_eq]
      rw [Nat.mod_eq_of_lt]
      have hlt : N / 2^(r.bit_position + r.filled) % 2^64 < 2^64 :=
        Nat.mod_lt _ (Nat.two_pow_pos 64)
      have hle : (N / 2^(r.bit_position + r.filled) % 2^64 + 1) * 2^r.filled
          ≤ 2^64 * 2^r.filled := Nat.mul_le_mul_right _ (by omega)
      have hp : (2:Nat)^64 * 2^r.filled ≤ 2^128 := by
        rw [← Nat.pow_add]
        exact Nat.pow_le_pow_right (by omega) (by omega)
      nlinarith [Nat.two_pow_pos r.filled]
    have hor : r.buffer ||| (N / 2^(r.bit_position + r.filled) % 2^64) * 2^r.filled
        = N / 2^r.bit_position % 2^(r.filled + 64) := by
      have hstep : r.buffer ||| (N / 2^(r.bit_position + r.filled) % 2^64) <<< r.filled
          = r.buffer + (N / 2^(r.bit_position + r.filled) % 2^64) * 2^r.filled :=
        or_shift_add (hbuf ▸ Nat.mod_lt _ (Nat.two_pow_pos r.filled))
      rw [Nat.shiftLeft_eq] at hstep
      rw [hstep, hbuf]
      have hdd : N / 2^(r.bit_position + r.filled) = N / 2^r.bit_position / 2^r.filled := by
        rw [Nat.div_div_eq_div_mul, ← Nat.pow_add]
      rw [hdd, show (2:Nat)^(r.filled + 64) = 2^r.filled * 2^64 from Nat.pow_add 2 _ _,
        Nat.mod_mul]
      ring
    have hcall : r.read count = .ok
        ((r.buffer ||| (loadLE8 r.bytes r.byte_idx <<< (r.filled % 128)) % 2^128)
            &&& rustMaskU64 count,
          ⟨r.bytes, r.bit_position + count,
            (r.buffer ||| (loadLE8 r.bytes r.byte_idx <<< (r.filled % 128)) % 2^128)
              >>> (count % 128),
            ((r.filled + 64) % 256 + 256 - count % 256) % 256, r.byte_idx + 8⟩) := by
      simp only [read]
      rw [if_neg hnoerr, if_pos hrefill]
    have hB : r.buffer ||| (loadLE8 r.bytes r.byte_idx <<< (r.filled % 128)) % 2^128
        = N / 2^r.bit_position % 2^(r.filled + 64) := by
      rw [hshift, hor]
    have hval : (r.buffer ||| (loadLE8 r.bytes r.byte_idx <<< (r.filled % 128)) % 2^128)
        &&& rustMaskU64 count = N / 2^r.bit_position % 2^count := by
      rw [hB, hmask, Nat.and_pow_two_sub_one_eq_mod, mod_pow_mod _ _ _ (by omega)]
    have hbuf2 : (r.buffer ||| (loadLE8 r.bytes r.byte_idx <<< (r.filled % 128)) % 2^128)
        >>> (count % 128)
        = N / 2^(r.bit_position + count) % 2^(r.filled + 64 - count) := by
      rw [hB, Nat.mod_eq_of_lt (by omega : count < 128), Nat.shiftRight_eq_div_pow,
        mod_pow_div_sub _ _ _ (by omega), Nat.div_div_eq_div_mul, ← Nat.pow_add]
    have hfl : ((r.filled + 64) % 256 + 256 - count % 256) % 256
        = r.filled + 64 - count := by omega
    refine ⟨⟨r.bytes, r.bit_position + count,
        (r.buffer ||| (loadLE8 r.bytes r.byte_idx <<< (r.filled % 128)) % 2^128)
          >>> (count % 128),
        ((r.filled + 64) % 256 + 256 - count % 256) % 256, r.byte_idx + 8⟩,
      by rw [hcall, hval], ⟨?_, ?_, ?_, ?_⟩, rfl, rfl, ?_⟩
    · show (r.buffer ||| (loadLE8 r.bytes r.byte_idx <<< (r.filled % 128)) % 2^128)
          >>> (count % 128)
          = N / 2^(r.bit_position + count) % 2^(((r.filled + 64) % 256 + 256 - count % 256) % 256)
      rw [hfl, hbuf2]
    · show 8 * (r.byte_idx + 8)
          = r.bit_position + count + ((r.filled + 64) % 256 + 256 - count % 256) % 256
      omega
    · show ((r.filled + 64) % 256 + 256 - count % 256) % 256 ≤ 127
      omega
    · show r.bit_position + count ≤ 8 * r.bytes.length
      omega
    · show ((r.filled + 64) % 256 + 256 - count % 256) % 256
          = (if r.filled < count then r.filled + 64 else r.filled) - count
      rw [if_pos hrefill]
      omega
  · -- no refill
    have hge : count ≤ r.filled := by omega
    have hcall : r.read count = .ok (r.buffer &&& rustMaskU64 count,
        ⟨r.bytes, r.bit_position + count, r.buffer >>> (count % 128),
          (r.filled + 256 - count % 256) % 256, r.byte_idx⟩) := by
      simp only [read]
      rw [if_neg hnoerr, if_neg hrefill]
    have hval : r.buffer &&& rustMaskU64 count = N / 2^r.bit_position % 2^count := by
      rw [hbuf, hmask, Nat.and_pow_two_sub_one_eq_mod, mod_pow_mod _ _ _ (by omega)]
    have hbuf2 : r.buffer >>> (count % 128)
        = N / 2^(r.bit_position + count) % 2^(r.filled - count) := by
      rw [hbuf, Nat.mod_eq_of_lt (by omega : count < 128), Nat.shiftRight_eq_div_pow,
        mod_pow_div_sub _ _ _ (by omega), Nat.div_div_eq_div_mul, ← Nat.pow_add]
    have hfl : (r.filled + 256 - count % 256) % 256 = r.filled - count := by omega
    refine ⟨⟨r.bytes, r.bit_position + count, r.buffer >>> (count % 128),
        (r.filled + 256 - count % 256) % 256, r.byte_idx⟩,
      by rw [hcall, hval], ⟨?_, ?_, ?_, ?_⟩, rfl, rfl, ?_⟩
    · show r.buffer >>> (count % 128)
          = N / 2^(r.bit_position + count) % 2^((r.filled + 256 - count % 256) % 256)
      rw [hfl, hbuf2]
    · show 8 * r.byte_idx = r.bit_position + count + (r.filled + 256 - count % 256) % 256
      omega
    · show (r.filled + 256 - count % 256) % 256 ≤ 127
      omega
    · show r.bit_position + count ≤ 8 * r.bytes.length
      omega
    · show (r.filled + 256 - count % 256) % 256
          = (if r.filled < count then r.filled + 64 else r.filled) - count
      rw [if_neg hrefill]
      omega

/-! ### Field model (crates/quops_derive/src/field.rs) -/

/-- The six field kinds.  Rust stores a precomputed `bits` value in each
struct; its constructors are the only construction path, so `Field.bits`
below recomputes the same value from the immutable attributes.  `min`/`max`
are `i32` values, `max_length` a `u32` value, `variants` a `u8` value. -/
inductive Field
  | int (name : String) (min max : Option Int) (nullable : Bool)
  | boolean (name : String) (nullable : Bool)
  | bytes (name : String) (max_length : Option Nat) (nullable : Bool)
  | enum (name : String) (variants : Nat) (nullable : Bool)
  | record (name : String) (fields : List Field) (nullable : Bool)
  | array (name : String) (max_length : Nat) (items_field : Field) (nullable : Bool)
deriving Repr

mutual

/-- `FieldTrait::bits`, as computed by the constructors: bounded Int uses
`32 - (max - min + 1).leading_zeros()` in wrapping `i32` arithmetic, Bytes
and Array use `32 - max_length.leading_zeros()`, Enum uses
`8 - variants.leading_zeros()`, a Record sums its children in wrapping
`u32` arithmetic, and every kind adds `nullable as u8`. -/
def Field.bits : Field → Nat
  | .int _ (some mn) (some mx) nl => bitLen 32 (((mx - mn + 1) % 2^32).toNat) + nl.toNat
  | .int _ _ _ nl => 5 + nl.toNat
  | .boolean _ nl => 1 + nl.toNat
  | .bytes _ (some l) nl => bitLen 32 l + nl.toNat
  | .bytes _ none nl => 5 + nl.toNat
  | .enum _ v nl => bitLen 8 v + nl.toNat
  | .record _ fs nl => (sumBits fs + nl.toNat) % 2^32
  | .array _ ml _ nl => bitLen 32 ml + nl.toNat

/-- `fields.iter().map(|f| f.bits()).sum::<u32>()` (wrapping addition). -/
def sumBits : List Field → Nat
  | [] => 0
  | f :: fs => (Field.bits f + sumBits fs) % 2^32

end

def Field.name : Field → String
  | .int n _ _ _ => n
  | .boolean n _ => n
  | .bytes n _ _ => n
  | .enum n _ _ => n
  | .record n _ _ => n
  | .array n _ _ _ => n

def Field.nullable : Field → Bool
  | .int _ _ _ nl => nl
  | .boolean _ nl => nl
  | .bytes _ _ nl => nl
  | .enum _ _ nl => nl
  | .record _ _ nl => nl
  | .array _ _ _ nl => nl

def Field.is_primitive : Field → Bool
  | .int _ _ _ _ | .boolean _ _ | .bytes _ _ _ | .enum _ _ _ => true
  | .record _ _ _ | .array _ _ _ _ => false

/-- `IntField::new`: rejects `min > max` when both bounds are present. -/
def IntField.new (name : String) (min max : Option Int) (nullable : Bool) :
    Except String Field :=
  match min, max with
  | some mn, some mx =>
    if mn > mx then .error "Minimum value cannot be greater than maximum value"
    else .ok (.int name min max nullable)
  | _, _ => .ok (.int name min max nullable)

def BooleanField.new (name : String) (nullable : Bool) : Field :=
  .boolean name nullable

def BytesField.new (name : String) (max_length : Option Nat) (nullable : Bool) : Field :=
  .bytes name max_length nullable

def EnumField.new (name : String) (variants : Nat) (nullable : Bool) : Field :=
  .enum name variants nullable

def RecordField.new (name : String) (fields : List Field) (nullable : Bool) : Field :=
  .record name fields nullable

def ArrayField.new (name : String) (max_length : Nat) (field : Field) (nullable : Bool) :
    Field :=
  .array name max_length field nullable

/-! ### Schema parsing (crates/quops_derive/src/schema.rs) -/

/-- JSON values as parsed by the schema loader.  Numbers are modeled as
integers (the schema grammar only uses integral numbers). -/
inductive Json
  | null
  | bool (b : Bool)
  | num (n : Int)
  | str (s : String)
  | arr (xs : List Json)
  | obj (kvs : List (String × Json))
deriving Repr

/-- Map lookup on a JSON object (`serde_json::Map::get`). -/
def jlookup : List (String × Json) → String → Option Json
  | [], _ => none
  | (k, v) :: rest, key => if k = key then some v else jlookup rest key

/-- `Value::as_str`. -/
def Json.as_str : Json → Option String
  | .str s => some s
  | _ => none

/-- `Value::as_bool`. -/
def Json.as_bool : Json → Option Bool
  | .bool b => some b
  | _ => none

/-- `Value::as_i64`. -/
def Json.as_i64 : Json → Option Int
  | .num n => if -(2^63) ≤ n ∧ n < 2^63 then some n else none
  | _ => none

/-- `Value::as_u64`. -/
def Json.as_u64 : Json → Option Nat
  | .num n => if 0 ≤ n ∧ n < 2^64 then some n.toNat else none
  | _ => none

/-- Two's-complement wrap of an integer to the `i32` range (`as i32`). -/
def wrap32 (x : Int) : Int := (x + 2^31) % 2^32 - 2^31

/-- A parsed schema: either a record (field list plus named dependency
schemas) or an enum (ordered variant names). -/
inductive Schema
  | record (fields : List Field) (dependencies : List (String × Schema))
  | enum (variants : List String)

theorem jlookup_sizeOf {kvs : List (String × Json)} {key : String} {j : Json}
    (h : jlookup kvs key = some j) : sizeOf j < sizeOf kvs := by
  induction kvs with
  | nil => simp [jlookup] at h
  | cons kv rest ih =>
    obtain ⟨k, v⟩ := kv
    simp only [jlookup] at h
    by_cases hk : k = key
    · rw [if_pos hk] at h
      cases h
      simp
      omega
    · rw [if_neg hk] at h
      have := ih h
      simp
      omega

/-- Dependency lookup (`self.dependencies.get(ty)`). -/
def slookup : List (String × Schema) → String → Option Schema
  | [], _ => none
  | (k, v) :: rest, key => if k = key then some v else slookup rest key

/-- The comparison `min > max` on `Option<i32>`; the source evaluates it
only under `is_some()` of both operands, where it compares the inner
values. -/
def optIntLt : Option Int → Option Int → Bool
  | some a, some b => decide (a < b)
  | _, _ => false

/-- `RecordSchema::parse_field`.  `self` is represented by its dependency
map.  The `expect` panics of the source (missing or non-string `type`,
missing `items`) are modeled as errors; the distinction does not matter for
the properties proved here. -/
def parse_field (deps : List (String × Schema)) (name : String) (value : Json) :
    Except String Field :=
  match value with
  | .str ty =>
    match ty with
    | "int" => IntField.new name none none false
    | "bool" => .ok (BooleanField.new name false)
    | "bytes" => .ok (BytesField.new name none false)
    | "array" => .error "array field without schema"
    | _ =>
      match slookup deps ty with
      | some (.record fields _) => .ok (RecordField.new name fields false)
      | some (.enum variants) => .ok (EnumField.new name (variants.length % 256) false)
      | none => .error "Unsupported field type"
  | .obj kvs =>
    match (jlookup kvs "type").bind Json.as_str with
    | none => .error "Field type is not a string"
    | some ty =>
      let nullable := ((jlookup kvs "nullable").bind Json.as_bool).getD false
      match ty with
      | "int" =>
        let min := ((jlookup kvs "min").bind Json.as_i64).map wrap32
        let max := ((jlookup kvs "max").bind Json.as_i64).map wrap32
        if min.isSome && max.isSome && optIntLt max min then
          .error "Invalid range"
        else
          IntField.new name min max nullable
      | "bool" => .ok (BooleanField.new name nullable)
      | "bytes" =>
        let max_length := ((jlookup kvs "maxLength").bind Json.as_u64).map (· % 2^32)
        .ok (BytesField.new name max_length nullable)
      | "array" =>
        let max_length := (((jlookup kvs "maxLength").bind Json.as_u64).map
          (· % 2^32)).getD (2^32 - 1)
        match hitems : jlookup kvs "items" with
        | none => .error "Array field must have the items field"
        | some items_type =>
          match parse_field deps name items_type with
          | .error e => .error e
          | .ok items_field => .ok (ArrayField.new name max_length items_field nullable)
      | _ =>
        match slookup deps ty with
        | some (.record fields _) => .ok (RecordField.new name fields nullable)
        | some (.enum variants) =>
          .ok (EnumField.new name (variants.length % 256) nullable)
        | none => .error "Field is not a valid type or object"
  | _ => .error "Field is not a valid type or object"
termination_by sizeOf value
decreasing_by
  have h1 := jlookup_sizeOf hitems
  simp
  omega

/-! ### Name mapping (crates/quops_derive/src/utils.rs) -/

/-- `char::to_ascii_lowercase` on an ASCII scalar value.  Strings are
modeled as lists of scalar values; the model covers the ASCII identifiers
the schema format uses (`is_uppercase` agrees with Rust on ASCII). -/
def to_ascii_lowercase (c : Nat) : Nat :=
  if 65 ≤ c ∧ c ≤ 90 then c + 32 else c

/-- `char::to_ascii_uppercase` on an ASCII scalar value. -/
def to_ascii_uppercase (c : Nat) : Nat :=
  if 97 ≤ c ∧ c ≤ 122 then c - 32 else c

/-- `char::is_uppercase`, restricted to ASCII. -/
def is_uppercase (c : Nat) : Bool :=
  decide (65 ≤ c ∧ c ≤ 90)

/-- Loop body of `camel_to_snake_case`: `first` tracks `result.is_empty()`,
which holds exactly until the first character is pushed. -/
def camel_to_snake_go (first : Bool) : List Nat → List Nat
  | [] => []
  | c :: rest =>
    if is_uppercase c then
      (if first then [] else [95]) ++ to_ascii_lowercase c :: camel_to_snake_go false rest
    else
      c :: camel_to_snake_go false rest

/-- `camel_to_snake_case`. -/
def camel_to_snake_case (s : List Nat) : List Nat :=
  camel_to_snake_go true s

/-- Loop body of `snake_to_camel_case`: `next_char_uppercase` is the flag
set by an underscore. -/
def snake_to_camel_go (next_char_uppercase : Bool) : List Nat → List Nat
  | [] => []
  | c :: rest =>
    if c = 95 then
      snake_to_camel_go true rest
    else if next_char_uppercase then
      to_ascii_uppercase c :: snake_to_camel_go false rest
    else
      c :: snake_to_camel_go false rest

/-- `snake_to_camel_case`. -/
def snake_to_camel_case (s : List Nat) : List Nat :=
  snake_to_camel_go false s

/-! ### Error taxonomy (src/errors.rs) -/

/-- `EncodeError` (messages dropped). -/
inductive EncodeError
  | outOfBounds
  | notSupported
deriving DecidableEq, Repr

/-- `DecodeError` (messages dropped). -/
inductive DecodeError
  | outOfBounds
  | notEnoughBytes
  | notEnoughBits
deriving DecidableEq, Repr

/-- `From<WriteError> for EncodeError`. -/
def EncodeError.fromWrite : WriteError → EncodeError
  | .valueTooLarge => .outOfBounds

/-- `From<ReadError> for DecodeError`. -/
def DecodeError.fromRead : ReadError → DecodeError
  | .notEnoughBits => .notEnoughBits
  | .invalidBitCount => .outOfBounds

/-! ### Host values and the generated encode routine
(crates/quops_derive/src/encode.rs) -/

/-- A host-language value, as far as the generated code observes it:
integers of any validated host integer type as mathematical integers, enums
by the ordinal their generated `AsU64`/`TryInto` conversions use, optional
wrappers for nullable fields, records by their fields in schema order. -/
inductive Value
  | int (i : Int)
  | bool (b : Bool)
  | bytes (bs : List Nat)
  | enumOrd (ord : Nat)
  | record (vs : List Value)
  | arr (vs : List Value)
  | opt (v : Option Value)
deriving Repr

/-- `v as u64`: two's-complement image of a host integer. -/
def toU64 (x : Int) : Nat := (x % 2^64).toNat

/-- `2u32.saturating_pow(e)`. -/
def satPow2u32 (e : Nat) : Nat := min (2^e) (2^32 - 1)

/-- State threaded through a generated `encode` body: the bit writer plus
the out-of-band `buffers` list collecting byte payloads. -/
structure EncCtx where
  writer : BitWriter
  buffers : List (List Nat)
deriving Repr

/-- `writer.write(value, count)?` with the `From<WriteError>` conversion. -/
def EncCtx.write (c : EncCtx) (value count : Nat) : Except EncodeError EncCtx :=
  match c.writer.write value count with
  | .error e => .error (EncodeError.fromWrite e)
  | .ok w => .ok ⟨w, c.buffers⟩

mutual

/-- The code `generate_encode_field` emits for one field: the
`encode_nullable` wrapper (a presence bit guarding the payload) around the
kind-specific body. -/
def encodeField (f : Field) (v : Value) (c : EncCtx) : Except EncodeError EncCtx :=
  if f.nullable then
    match v with
    | .opt (some v1) =>
      match c.write 1 1 with
      | .error e => .error e
      | .ok c1 => encodeBody f v1 c1
    | .opt none => c.write 0 1
    | _ => .error .notSupported
  else
    encodeBody f v c
termination_by (sizeOf f, 1, 0)

/-- The kind-specific payload writes of `generate_encode_field`.  `bits` is
`field.bits() as u8`; the cast never truncates for the kinds that use it
(their width is at most 33).  Value/field shape mismatches cannot occur in
the (type-checked) generated code and are mapped to `notSupported`. -/
def encodeBody (f : Field) (v : Value) (c : EncCtx) : Except EncodeError EncCtx :=
  let bits := f.bits
  match f, v with
  | .int _ (some mn) (some mx) _, .int i =>
    let vi := wrap32 i
    if ¬ (mn ≤ vi ∧ vi ≤ mx) then .error .outOfBounds
    else c.write (toU64 (wrap32 (vi - mn))) bits
  | .int _ _ _ _, .int i =>
    let bits_width := bitLen 64 (toU64 i)
    match c.write bits_width bits with
    | .error e => .error e
    | .ok c1 => c1.write (toU64 i) bits_width
  | .boolean _ _, .bool b => c.write b.toNat 1
  | .enum _ _ _, .enumOrd ord => c.write ord bits
  | .bytes _ ml _, .bytes bs =>
    let max_length := ml.getD (satPow2u32 (satPow2u32 bits))
    if max_length < 2^32 - 1 ∧ bs.length > max_length then .error .outOfBounds
    else EncCtx.write ⟨c.writer, c.buffers ++ [bs]⟩ bs.length bits
  | .record _ fs _, .record vs => encodeFields fs vs c
  | .array _ _ it _, .arr vs =>
    match c.write vs.length bits with
    | .error e => .error e
    | .ok c1 => encodeItems it vs c1
  | _, _ => .error .notSupported
termination_by (sizeOf f, 0, 0)

/-- Sequential encoding of record fields in schema order. -/
def encodeFields : List Field → List Value → EncCtx → Except EncodeError EncCtx
  | [], [], c => .ok c
  | f :: fs, v :: vs, c =>
    match encodeField f v c with
    | .error e => .error e
    | .ok c1 => encodeFields fs vs c1
  | _, _, _ => .error .notSupported
termination_by fs _ _ => (sizeOf fs, 2, 0)

/-- The `for item in var.iter()` loop of the Array case. -/
def encodeItems (it : Field) : List Value → EncCtx → Except EncodeError EncCtx
  | [], c => .ok c
  | v :: vs, c =>
    match encodeField it v c with
    | .error e => .error e
    | .ok c1 => encodeItems it vs c1
termination_by vs _ => (sizeOf it, 2, sizeOf vs)

end

/-- Concatenation of the collected byte buffers
(`for buf in ... { bin.extend_from_slice(buf) }`). -/
def flat : List (List Nat) → List Nat
  | [] => []
  | xs :: rest => xs ++ flat rest

/-- The generated `Encode::encode` for a record schema: write every field,
finalize the bit buffer, then append the collected byte payloads in reverse
order of collection.  (When the schema has no Bytes field the source skips
the buffer machinery; `buffers` is empty then and the result coincides.) -/
def encodeRecord (fields : List Field) (vs : List Value) :
    Except EncodeError (List Nat) :=
  match encodeFields fields vs ⟨BitWriter.with_capacity 0, []⟩ with
  | .error e => .error e
  | .ok c => .ok (c.writer.into_bytes ++ flat c.buffers.reverse)

/-! ### The generated decode routine (crates/quops_derive/src/decode.rs) -/

/-- `usize` wrapping subtraction (release profile), as performed by
`buffers_end_index - length`. -/
def subUsize (a b : Nat) : Nat := (a + 2^64 - b % 2^64) % 2^64

/-- The value computation `(value as i32 + min) as i32` of the generated
bounded-int decoder. -/
def intDecodeValue (mn : Int) (v : Nat) : Int := wrap32 (wrap32 (v : Int) + mn)

/-- State threaded through a generated `decode` body: the bit reader plus
the tail cursor `buffers_end_index`. -/
structure DecCtx where
  reader : BitReader
  buffers_end_index : Nat
deriving Repr

/-- `reader.read(count)?` with the `From<ReadError>` conversion. -/
def DecCtx.read (c : DecCtx) (count : Nat) : Except DecodeError (Nat × DecCtx) :=
  match c.reader.read count with
  | .error e => .error (DecodeError.fromRead e)
  | .ok (v, r) => .ok (v, ⟨r, c.buffers_end_index⟩)

mutual

/-- The code `generate_decode_field` emits for one field: the
`decode_nullable` wrapper (presence bit) around the kind-specific body. -/
def decodeField (f : Field) (input : List Nat) (c : DecCtx) :
    Except DecodeError (Value × DecCtx) :=
  if f.nullable then
    match c.read 1 with
    | .error e => .error e
    | .ok (b, c1) =>
      if b = 1 then
        match decodeBody f input c1 with
        | .error e => .error e
        | .ok (v, c2) => .ok (.opt (some v), c2)
      else
        .ok (.opt none, c1)
  else
    decodeBody f input c
termination_by (sizeOf f, 1, 0)

/-- The kind-specific reads of `generate_decode_field`.  `bits` is
`field.bits() as u8` (no truncation for the kinds that use it).  The
`try_into` host conversions are identities on the already-range-checked
values of a validated host type.  For Enum the generated `TryInto` accepts
exactly the ordinals below the variant count. -/
def decodeBody (f : Field) (input : List Nat) (c : DecCtx) :
    Except DecodeError (Value × DecCtx) :=
  let bits := f.bits
  match f with
  | .int _ (some mn) (some mx) _ =>
    match c.read bits with
    | .error e => .error e
    | .ok (v, c1) =>
      let value := intDecodeValue mn v
      if ¬ (mn ≤ value ∧ value ≤ mx) then .error .outOfBounds
      else .ok (.int value, c1)
  | .int _ _ _ _ =>
    match c.read bits with
    | .error e => .error e
    | .ok (w, c1) =>
      match c1.read (w % 256) with
      | .error e => .error e
      | .ok (v, c2) => .ok (.int (v : Int), c2)
  | .boolean _ _ =>
    match c.read 1 with
    | .error e => .error e
    | .ok (v, c1) => .ok (.bool (decide (v = 1)), c1)
  | .bytes _ _ _ =>
    match c.read bits with
    | .error e => .error e
    | .ok (length, c1) =>
      let start := subUsize c1.buffers_end_index length
      let value :=
        if start ≤ c1.buffers_end_index ∧ c1.buffers_end_index ≤ input.length then
          some ((input.drop start).take (c1.buffers_end_index - start))
        else
          none
      match value with
      | some bs => .ok (.bytes bs, ⟨c1.reader, start⟩)
      | none => .error .notEnoughBytes
  | .enum _ nv _ =>
    match c.read bits with
    | .error e => .error e
    | .ok (v, c1) =>
      if v % 256 < nv then .ok (.enumOrd (v % 256), c1) else .error .outOfBounds
  | .record _ fs _ =>
    match decodeFields fs input c with
    | .error e => .error e
    | .ok (vs, c1) => .ok (.record vs, c1)
  | .array _ _ it _ =>
    match c.read bits with
    | .error e => .error e
    | .ok (length, c1) =>
      match decodeItems it input length c1 with
      | .error e => .error e
      | .ok (vs, c2) => .ok (.arr vs, c2)
termination_by (sizeOf f, 0, 0)

/-- Sequential decoding of record fields in schema order. -/
def decodeFields : List Field → List Nat → DecCtx →
    Except DecodeError (List Value × DecCtx)
  | [], _, c => .ok ([], c)
  | f :: fs, input, c =>
    match decodeField f input c with
    | .error e => .error e
    | .ok (v, c1) =>
      match decodeFields fs input c1 with
      | .error e => .error e
      | .ok (vs, c2) => .ok (v :: vs, c2)
termination_by fs _ _ => (sizeOf fs, 2, 0)

/-- The `for _ in 0..length` loop of the Array case. -/
def decodeItems (it : Field) (input : List Nat) : Nat → DecCtx →
    Except DecodeError (List Value × DecCtx)
  | 0, c => .ok ([], c)
  | n+1, c =>
    match decodeField it input c with
    | .error e => .error e
    | .ok (v, c1) =>
      match decodeItems it input n c1 with
      | .error e => .error e
      | .ok (vs, c2) => .ok (v :: vs, c2)
termination_by n _ => (sizeOf it, 2, n)

end

/-- The generated `Decode::decode` for a record schema: a fresh reader over
the input and the tail cursor initialized to `bytes.len()`.  (Without Bytes
fields the source omits the cursor; it is then never consulted.) -/
def decodeRecord (fields : List Field) (input : List Nat) :
    Except DecodeError (List Value) :=
  match decodeFields fields input ⟨BitReader.new input, input.length⟩ with
  | .error e => .error e
  | .ok (vs, _) => .ok vs

/-! ### Bit and tail-byte consumption of the generated encoder -/

mutual

/-- Number of bits `encodeField` appends for a value (presence bit
included). -/
def bitsUsed (f : Field) (v : Value) : Nat :=
  if f.nullable then
    match v with
    | .opt (some v1) => 1 + bitsUsedBody f v1
    | _ => 1
  else
    bitsUsedBody f v
termination_by (sizeOf f, 1, 0)

/-- Number of bits the kind-specific body of `encodeField` appends: the
prefix width is the stored `field.bits()` (which already counts the
nullability flag), except for Boolean, whose write is hard-coded to one
bit, and Record, which has no prefix of its own. -/
def bitsUsedBody (f : Field) (v : Value) : Nat :=
  match f, v with
  | .int _ (some _) (some _) _, .int _ => f.bits
  | .int _ _ _ _, .int i => f.bits + bitLen 64 (toU64 i)
  | .boolean _ _, .bool _ => 1
  | .enum _ _ _, .enumOrd _ => f.bits
  | .bytes _ _ _, .bytes _ => f.bits
  | .record _ fs _, .record vs => bitsUsedFields fs vs
  | .array _ _ it _, .arr vs => f.bits + bitsUsedItems it vs
  | _, _ => 0
termination_by (sizeOf f, 0, 0)

def bitsUsedFields : List Field → List Value → Nat
  | [], _ => 0
  | _, [] => 0
  | f :: fs, v :: vs => bitsUsed f v + bitsUsedFields fs vs
termination_by fs _ => (sizeOf fs, 2, 0)

def bitsUsedItems (it : Field) : List Value → Nat
  | [] => 0
  | v :: vs => bitsUsed it v + bitsUsedItems it vs
termination_by vs => (sizeOf it, 2, sizeOf vs)

end

mutual

/-- Byte payloads `encodeField` pushes onto `buffers`, in encounter
order. -/
def tailBufs (f : Field) (v : Value) : List (List Nat) :=
  if f.nullable then
    match v with
    | .opt (some v1) => tailBufsBody f v1
    | _ => []
  else
    tailBufsBody f v
termination_by (sizeOf f, 1, 0)

def tailBufsBody (f : Field) (v : Value) : List (List Nat) :=
  match f, v with
  | .bytes _ _ _, .bytes bs => [bs]
  | .record _ fs _, .record vs => tailBufsFields fs vs
  | .array _ _ it _, .arr vs => tailBufsItems it vs
  | _, _ => []
termination_by (sizeOf f, 0, 0)

def tailBufsFields : List Field → List Value → List (List Nat)
  | [], _ => []
  | _, [] => []
  | f :: fs, v :: vs => tailBufs f v ++ tailBufsFields fs vs
termination_by fs _ => (sizeOf fs, 2, 0)

def tailBufsItems (it : Field) : List Value → List (List Nat)
  | [] => []
  | v :: vs => tailBufs it v ++ tailBufsItems it vs
termination_by vs => (sizeOf it, 2, sizeOf vs)

end

/-! ### Well-formed schemas and schema-compatible values -/

/-- Well-formed fields: the sanity conditions a practical schema satisfies,
under which the generated encoder and decoder are inverse.  They exclude
zero-width length prefixes (`maxLength: 0`), empty enums, and bounded
integer ranges so wide that the `i32` offset arithmetic wraps. -/
inductive WFField : Field → Prop
  | int_bounded {nm : String} {mn mx : Int} {nl : Bool} :
      -2^31 ≤ mn → mn ≤ mx → mx < 2^31 → mx - mn + 1 ≤ 2^31 →
      WFField (.int nm (some mn) (some mx) nl)
  | int_unbounded {nm : String} {mn mx : Option Int} {nl : Bool} :
      mn = none ∨ mx = none → WFField (.int nm mn mx nl)
  | boolean {nm : String} {nl : Bool} : WFField (.boolean nm nl)
  | bytes_bounded {nm : String} {l : Nat} {nl : Bool} :
      1 ≤ l → l < 2^32 → WFField (.bytes nm (some l) nl)
  | bytes_unbounded {nm : String} {nl : Bool} : WFField (.bytes nm none nl)
  | enum {nm : String} {nv : Nat} {nl : Bool} :
      1 ≤ nv → nv ≤ 255 → WFField (.enum nm nv nl)
  | record {nm : String} {fs : List Field} {nl : Bool} :
      (∀ f ∈ fs, WFField f) → WFField (.record nm fs nl)
  | array {nm : String} {ml : Nat} {it : Field} {nl : Bool} :
      1 ≤ ml → ml < 2^32 → WFField it → WFField (.array nm ml it nl)

mutual

/-- Compatibility of a host value with a field, ignoring the nullability
flag: the shape produced by a host type that passed
`validate_field_type`.  Integer values are confined to the ranges the wire
format can carry back losslessly; for the unbounded encoding this excludes
zero, where the generated decoder issues the 0-width read whose result is
not the written value (see the round-trip analysis). -/
inductive CompatC : Field → Value → Prop
  | int_bounded {nm : String} {mn mx : Int} {nl : Bool} {i : Int} :
      -2^31 ≤ i → i < 2^31 →
      CompatC (.int nm (some mn) (some mx) nl) (.int i)
  | int_unbounded {nm : String} {mn mx : Option Int} {nl : Bool} {i : Int} :
      mn = none ∨ mx = none → 0 < i → i < 2^31 →
      CompatC (.int nm mn mx nl) (.int i)
  | boolean {nm : String} {nl b : Bool} : CompatC (.boolean nm nl) (.bool b)
  | bytes {nm : String} {ml : Option Nat} {nl : Bool} {bs : List Nat} :
      (∀ b ∈ bs, b < 256) → CompatC (.bytes nm ml nl) (.bytes bs)
  | enum {nm : String} {nv : Nat} {nl : Bool} {o : Nat} :
      o < nv → CompatC (.enum nm nv nl) (.enumOrd o)
  | record {nm : String} {fs : List Field} {nl : Bool} {vs : List Value} :
      vs.length = fs.length →
      (∀ p ∈ List.zip fs vs, Compat p.1 p.2) →
      CompatC (.record nm fs nl) (.record vs)
  | array {nm : String} {ml : Nat} {it : Field} {nl : Bool} {vs : List Value} :
      (∀ v ∈ vs, Compat it v) →
      CompatC (.array nm ml it nl) (.arr vs)

/-- Compatibility including the nullability wrapper. -/
inductive Compat : Field → Value → Prop
  | notNull {f : Field} {v : Value} :
      f.nullable = false → CompatC f v → Compat f v
  | isSome {f : Field} {v : Value} :
      f.nullable = true → CompatC f v → Compat f (.opt (some v))
  | isNone {f : Field} : f.nullable = true → Compat f (.opt none)

end

/-! ### Helper lemmas for the encode/decode simulation -/

theorem EncCtx.write_bound {c c' : EncCtx} {value count : Nat}
    (h : c.write value count = .ok c') :
    count ≤ 64 ∧ (count = 64 ∨ value < 2^count) := by
  by_cases hc : count > 64 ∨ (count < 64 ∧ value ≥ 1 <<< count)
  · rw [EncCtx.write, BitWriter.write, if_pos hc] at h
    simp at h
  · rw [Nat.shiftLeft_eq, Nat.one_mul] at hc
    omega

theorem EncCtx.write_spec {c c' : EncCtx} {value count : Nat}
    (hwf : c.writer.WF) (h64 : count ≤ 64) (hv : value < 2^count)
    (h : c.write value count = .ok c') :
    c'.writer.WF ∧ c'.buffers = c.buffers ∧
    c'.writer.wVal = c.writer.wVal + value * 2^c.writer.wLen ∧
    c'.writer.wLen = c.writer.wLen + count := by
  obtain ⟨w', hcall, hwf', hval, hlen, _, _⟩ := BitWriter.write_ok hwf h64 hv (w := c.writer)
  rw [EncCtx.write, hcall] at h
  cases h
  exact ⟨hwf', rfl, hval, hlen⟩

/-- A later writer state determines the stream prefix at an earlier
length. -/
theorem glob_mono {w w' : BitWriter} {N D : Nat}
    (hstep : w'.wVal = w.wVal + D * 2^w.wLen)
    (hlt : w.wVal < 2^w.wLen) (hle : w.wLen ≤ w'.wLen)
    (hglob : w'.wVal = N % 2^w'.wLen) :
    w.wVal = N % 2^w.wLen := by
  have h1 : N % 2^w.wLen = (N % 2^w'.wLen) % 2^w.wLen := (mod_pow_mod N _ _ hle).symm
  rw [h1, ← hglob, hstep, Nat.add_mul_mod_self_right, Nat.mod_eq_of_lt hlt]

/-- The bits a successful write placed at position `wLen w` are what the
stream holds there. -/
theorem read_written {w w' : BitWriter} {N value count : Nat}
    (hstep : w'.wVal = w.wVal + value * 2^w.wLen)
    (hlen : w'.wLen = w.wLen + count)
    (hvlt : value < 2^count) (hwv : w.wVal < 2^w.wLen)
    (hglob : w'.wVal = N % 2^w'.wLen) :
    N / 2^w.wLen % 2^count = value := by
  have h1 : N % 2^(w.wLen + count) = w.wVal + value * 2^w.wLen := by
    rw [← hlen, ← hglob, hstep]
  have h2 := mod_pow_div N w.wLen count
  rw [h1] at h2
  rw [← h2, Nat.mul_comm value (2^w.wLen),
    Nat.add_mul_div_left _ _ (Nat.two_pow_pos w.wLen), Nat.div_eq_of_lt hwv]
  omega

/-- One primitive write/read round trip: reading `count` bits at the
position where the encoder wrote `value` yields `value` and keeps the
reader aligned. -/
theorem read_step {out : List Nat} {r : BitReader} {w w' : BitWriter} {value count : Nat}
    (hb : ∀ b ∈ out, b < 256)
    (hr : r.RWF) (hrb : r.bytes = out) (hrp : r.bit_position = w.wLen)
    (hstep : w'.wVal = w.wVal + value * 2^w.wLen)
    (hlen : w'.wLen = w.wLen + count)
    (hwv : w.wVal < 2^w.wLen)
    (hglob : w'.wVal = bytesToNat out % 2^w'.wLen)
    (hfit : w'.wLen ≤ 8 * out.length)
    (h1 : 1 ≤ count) (h64 : count ≤ 64) (hvlt : value < 2^count) :
    ∃ r', r.read count = .ok (value, r') ∧
      r'.RWF ∧ r'.bytes = out ∧ r'.bit_position = w'.wLen := by
  have hav : r.bit_position + count ≤ 8 * r.bytes.length := by
    rw [hrb, hrp]
    omega
  obtain ⟨r', hcall, hwf', hbytes', hpos', _⟩ :=
    BitReader.read_ok (fun b hb2 => hb b (hrb ▸ hb2)) hr h1 h64 hav
  refine ⟨r', ?_, hwf', hrb ▸ hbytes', by omega⟩
  rw [hcall, hrb, hrp, read_written hstep hlen hvlt hwv hglob]

theorem subUsize_eq {a b : Nat} (hb : b ≤ a) (ha : a < 2^64) :
    subUsize a b = a - b := by
  rw [subUsize]
  omega

theorem subUsize_gt {a b : Nat} (hb : a < b) (ha : a < 2^64) (hblt : b < 2^64) :
    a < subUsize a b := by
  rw [subUsize]
  omega

theorem flat_append (A B : List (List Nat)) : flat (A ++ B) = flat A ++ flat B := by
  induction A with
  | nil => simp [flat]
  | cons x xs ih => simp [flat, ih]

theorem flat_length_reverse (A : List (List Nat)) :
    (flat A.reverse).length = (flat A).length := by
  induction A with
  | nil => rfl
  | cons x xs ih =>
    simp only [List.reverse_cons, flat_append, flat, List.length_append]
    simp [ih]
    omega

/-- Peeling the suffix `X` off the tail region. -/
theorem take_peel {out P X : List Nat} {ends : Nat}
    (hends : ends ≤ out.length) (h : out.take ends = P ++ X) :
    X.length ≤ ends ∧ out.take (ends - X.length) = P := by
  have hlen : (out.take ends).length = ends := by
    rw [List.length_take]
    omega
  have hPX : P.length + X.length = ends := by
    rw [h] at hlen
    simpa [List.length_append] using hlen
  constructor
  · omega
  · have h2 : out.take (ends - X.length) = (out.take ends).take (ends - X.length) := by
      rw [List.take_take]
      congr 1
      omega
    rw [h2, h, show ends - X.length = P.length from by omega, List.take_left]

/-- The tail slice the decoder extracts for a Bytes field is the encoded
payload. -/
theorem take_slice {out P X : List Nat} {ends : Nat}
    (hends : ends ≤ out.length) (h : out.take ends = P ++ X) :
    (out.drop (ends - X.length)).take (ends - (ends - X.length)) = X := by
  obtain ⟨hXle, _⟩ := take_peel hends h
  have hPlen : P.length = ends - X.length := by
    have hlen : (out.take ends).length = ends := by
      rw [List.length_take]
      omega
    rw [h] at hlen
    simp only [List.length_append] at hlen
    omega
  have h1 : (out.take ends).drop (ends - X.length) = X := by
    rw [h, ← hPlen, List.drop_left]
  rw [List.drop_take] at h1
  exact h1

theorem wrap32_id {x : Int} (h1 : -2^31 ≤ x) (h2 : x < 2^31) : wrap32 x = x := by
  rw [wrap32]
  omega

theorem toU64_toNat {x : Int} (h1 : 0 ≤ x) (h2 : x < 2^64) : toU64 x = x.toNat := by
  rw [toU64]
  omega

/-! ### Simulation statements -/

/-- The final byte stream extends the writer state `w`: its bits below
`wLen w` are the written bits. -/
def OutOK (out : List Nat) (w : BitWriter) : Prop :=
  (∀ b ∈ out, b < 256) ∧ out.length < 2^64 ∧
  w.wVal = bytesToNat out % 2^w.wLen ∧ w.wLen ≤ 8 * out.length

/-- The reader sits at bit position `L` of the stream `out`. -/
def RAligned (out : List Nat) (r : BitReader) (L : Nat) : Prop :=
  r.RWF ∧ r.bytes = out ∧ r.bit_position = L

/-- The tail region below the cursor `ends` ends with the byte payloads
`B` in reverse order. -/
def TailOK (out : List Nat) (ends : Nat) (B : List (List Nat)) : Prop :=
  ends ≤ out.length ∧ ∃ P, out.take ends = P ++ flat B.reverse

/-- The decoder run for one field recovers the encoded value. -/
def SimDecF (f : Field) (v : Value) (w w' : BitWriter) : Prop :=
  ∀ out r ends, OutOK out w' → RAligned out r w.wLen →
    TailOK out ends (tailBufs f v) →
    ∃ r', decodeField f out ⟨r, ends⟩
        = .ok (v, ⟨r', ends - (flat (tailBufs f v)).length⟩) ∧
      RAligned out r' w'.wLen

/-- The decoder run for one field body (no nullability prefix). -/
def SimDecB (f : Field) (v : Value) (w w' : BitWriter) : Prop :=
  ∀ out r ends, OutOK out w' → RAligned out r w.wLen →
    TailOK out ends (tailBufsBody f v) →
    ∃ r', decodeBody f out ⟨r, ends⟩
        = .ok (v, ⟨r', ends - (flat (tailBufsBody f v)).length⟩) ∧
      RAligned out r' w'.wLen

/-- The decoder run for a field list. -/
def SimDecFs (fs : List Field) (vs : List Value) (w w' : BitWriter) : Prop :=
  ∀ out r ends, OutOK out w' → RAligned out r w.wLen →
    TailOK out ends (tailBufsFields fs vs) →
    ∃ r', decodeFields fs out ⟨r, ends⟩
        = .ok (vs, ⟨r', ends - (flat (tailBufsFields fs vs)).length⟩) ∧
      RAligned out r' w'.wLen

/-- The decoder run for `vs.length` array items. -/
def SimDecIs (it : Field) (vs : List Value) (w w' : BitWriter) : Prop :=
  ∀ out r ends, OutOK out w' → RAligned out r w.wLen →
    TailOK out ends (tailBufsItems it vs) →
    ∃ r', decodeItems it out vs.length ⟨r, ends⟩
        = .ok (vs, ⟨r', ends - (flat (tailBufsItems it vs)).length⟩) ∧
      RAligned out r' w'.wLen

/-- Encoder-side conclusions of the simulation: preserved writer
invariant, bit consumption, stream extension, buffer pushes. -/
def EncConc (c c' : EncCtx) (bu : Nat) (tb : List (List Nat)) : Prop :=
  c'.writer.WF ∧ c'.writer.wLen = c.writer.wLen + bu ∧
  (∃ D, c'.writer.wVal = c.writer.wVal + D * 2^c.writer.wLen) ∧
  c'.buffers = c.buffers ++ tb

theorem intDecodeValue_round {mn mx i : Int} (h0 : -2^31 ≤ mn) (h1 : mn ≤ i) (h2 : i ≤ mx)
    (h3 : mx < 2^31) (h4 : mx - mn + 1 ≤ 2^31) :
    intDecodeValue mn (i - mn).toNat = i := by
  unfold intDecodeValue wrap32
  omega

theorem simBody_int_bounded {nm : String} {mn mx : Int} {nl : Bool} {i : Int}
    {c c' : EncCtx}
    (hmn : -2^31 ≤ mn) (hmnx : mn ≤ mx) (hmx : mx < 2^31) (hspan : mx - mn + 1 ≤ 2^31)
    (hi1 : -2^31 ≤ i) (hi2 : i < 2^31)
    (hW : c.writer.WF)
    (henc : encodeBody (.int nm (some mn) (some mx) nl) (.int i) c = .ok c') :
    EncConc c c' (bitsUsedBody (.int nm (some mn) (some mx) nl) (.int i))
      (tailBufsBody (.int nm (some mn) (some mx) nl) (.int i)) ∧
    SimDecB (.int nm (some mn) (some mx) nl) (.int i) c.writer c'.writer := by
  simp only [encodeBody] at henc
  rw [wrap32_id hi1 hi2] at henc
  by_cases hrange : mn ≤ i ∧ i ≤ mx
  swap
  · rw [if_pos (by tauto)] at henc
    simp at henc
  rw [if_neg (by tauto)] at henc
  have hnl : nl.toNat ≤ 1 := by cases nl <;> simp
  have hspanNat : ((mx - mn + 1) % 2^32).toNat = (mx - mn + 1).toNat := by omega
  have hsN1 : 1 ≤ (mx - mn + 1).toNat := by omega
  have hbl1 : 1 ≤ bitLen 32 (mx - mn + 1).toNat := bitLen_pos (by omega) hsN1
  have hbl2 : bitLen 32 (mx - mn + 1).toNat ≤ 32 := bitLen_le _ _
  have hbits : Field.bits (.int nm (some mn) (some mx) nl)
      = bitLen 32 (mx - mn + 1).toNat + nl.toNat := by
    rw [Field.bits, hspanNat]
  have he : toU64 (wrap32 (i - mn)) = (i - mn).toNat := by
    rw [wrap32_id (by omega) (by omega), toU64_toNat (by omega) (by omega)]
  rw [he] at henc
  have helt : (i - mn).toNat < 2^(bitLen 32 (mx - mn + 1).toNat) := by
    have := lt_two_pow_bitLen (w := 32) (n := (mx - mn + 1).toNat) (by omega)
    omega
  have heltb : (i - mn).toNat < 2^(Field.bits (.int nm (some mn) (some mx) nl)) := by
    calc (i - mn).toNat < 2^(bitLen 32 (mx - mn + 1).toNat) := helt
    _ ≤ 2^(Field.bits (.int nm (some mn) (some mx) nl)) :=
      Nat.pow_le_pow_right (by omega) (by omega)
  have hb64 : Field.bits (.int nm (some mn) (some mx) nl) ≤ 64 := by omega
  obtain ⟨hW', hbuf', hval', hlen'⟩ := EncCtx.write_spec hW hb64 heltb henc
  refine ⟨⟨hW', ?_, ⟨(i - mn).toNat, hval'⟩, ?_⟩, ?_⟩
  · rw [hlen']
    simp only [bitsUsedBody]
  · rw [hbuf']
    simp only [tailBufsBody, List.append_nil]
  · intro out r ends ⟨hob, holen, hoval, hofit⟩ ⟨hr, hrb, hrp⟩ ⟨hends, _⟩
    obtain ⟨r', hread, hr', hrb', hrp'⟩ :=
      read_step hob hr hrb hrp hval' hlen' (BitWriter.wVal_lt hW) hoval hofit
        (by omega) hb64 heltb
    refine ⟨r', ?_, hr', hrb', hrp'⟩
    have hreadc : DecCtx.read ⟨r, ends⟩ (Field.bits (.int nm (some mn) (some mx) nl))
        = .ok ((i - mn).toNat, ⟨r', ends⟩) := by
      rw [DecCtx.read, hread]
    have hx : intDecodeValue mn (i - mn).toNat = i :=
      intDecodeValue_round hmn hrange.1 hrange.2 hmx hspan
    have hgoal : decodeBody (.int nm (some mn) (some mx) nl) out ⟨r, ends⟩
        = if ¬ (mn ≤ intDecodeValue mn (i - mn).toNat
              ∧ intDecodeValue mn (i - mn).toNat ≤ mx)
          then .error .outOfBounds
          else .ok (.int (intDecodeValue mn (i - mn).toNat), ⟨r', ends⟩) := by
      simp only [decodeBody]
      rw [hreadc]
    rw [hgoal]
    rw [hx]
    rw [if_neg (not_not_intro hrange)]
    simp only [tailBufsBody, flat, List.length_nil, Nat.sub_zero]

theorem simBody_boolean {nm : String} {nl b : Bool} {c c' : EncCtx}
    (hW : c.writer.WF)
    (henc : encodeBody (.boolean nm nl) (.bool b) c = .ok c') :
    EncConc c c' (bitsUsedBody (.boolean nm nl) (.bool b))
      (tailBufsBody (.boolean nm nl) (.bool b)) ∧
    SimDecB (.boolean nm nl) (.bool b) c.writer c'.writer := by
  simp only [encodeBody] at henc
  have hblt : b.toNat < 2^1 := by cases b <;> simp
  obtain ⟨hW', hbuf', hval', hlen'⟩ := EncCtx.write_spec hW (by omega) hblt henc
  refine ⟨⟨hW', ?_, ⟨b.toNat, hval'⟩, ?_⟩, ?_⟩
  · rw [hlen']
    simp only [bitsUsedBody]
  · rw [hbuf']
    simp only [tailBufsBody, List.append_nil]
  · intro out r ends ⟨hob, holen, hoval, hofit⟩ ⟨hr, hrb, hrp⟩ ⟨hends, _⟩
    obtain ⟨r', hread, hr', hrb', hrp'⟩ :=
      read_step hob hr hrb hrp hval' hlen' (BitWriter.wVal_lt hW) hoval hofit
        (by omega) (by omega) hblt
    refine ⟨r', ?_, hr', hrb', hrp'⟩
    have hreadc : DecCtx.read ⟨r, ends⟩ 1 = .ok (b.toNat, ⟨r', ends⟩) := by
      rw [DecCtx.read, hread]
    have hgoal : decodeBody (.boolean nm nl) out ⟨r, ends⟩
        = .ok (.bool (decide (b.toNat = 1)), ⟨r', ends⟩) := by
      simp only [decodeBody]
      rw [hreadc]
    rw [hgoal, show decide (b.toNat = 1) = b from by cases b <;> simp]
    simp only [tailBufsBody, flat, List.length_nil, Nat.sub_zero]

theorem simBody_enum {nm : String} {nv : Nat} {nl : Bool} {o : Nat} {c c' : EncCtx}
    (hnv1 : 1 ≤ nv) (hnv2 : nv ≤ 255) (ho : o < nv)
    (hW : c.writer.WF)
    (henc : encodeBody (.enum nm nv nl) (.enumOrd o) c = .ok c') :
    EncConc c c' (bitsUsedBody (.enum nm nv nl) (.enumOrd o))
      (tailBufsBody (.enum nm nv nl) (.enumOrd o)) ∧
    SimDecB (.enum nm nv nl) (.enumOrd o) c.writer c'.writer := by
  simp only [encodeBody] at henc
  have hnl : nl.toNat ≤ 1 := by cases nl <;> simp
  have hbl1 : 1 ≤ bitLen 8 nv := bitLen_pos (by omega) hnv1
  have hbl2 : bitLen 8 nv ≤ 8 := bitLen_le _ _
  have hbits : Field.bits (.enum nm nv nl) = bitLen 8 nv + nl.toNat := by
    rw [Field.bits]
  have holt : o < 2^(Field.bits (.enum nm nv nl)) := by
    have h1 : nv < 2^(bitLen 8 nv) := lt_two_pow_bitLen (by omega)
    have h2 : (2:Nat)^(bitLen 8 nv) ≤ 2^(Field.bits (.enum nm nv nl)) :=
      Nat.pow_le_pow_right (by omega) (by omega)
    omega
  obtain ⟨hW', hbuf', hval', hlen'⟩ := EncCtx.write_spec hW (by omega) holt henc
  refine ⟨⟨hW', ?_, ⟨o, hval'⟩, ?_⟩, ?_⟩
  · rw [hlen']
    simp only [bitsUsedBody]
  · rw [hbuf']
    simp only [tailBufsBody, List.append_nil]
  · intro out r ends ⟨hob, holen, hoval, hofit⟩ ⟨hr, hrb, hrp⟩ ⟨hends, _⟩
    obtain ⟨r', hread, hr', hrb', hrp'⟩ :=
      read_step hob hr hrb hrp hval' hlen' (BitWriter.wVal_lt hW) hoval hofit
        (by omega) (by omega) holt
    refine ⟨r', ?_, hr', hrb', hrp'⟩
    have hreadc : DecCtx.read ⟨r, ends⟩ (Field.bits (.enum nm nv nl))
        = .ok (o, ⟨r', ends⟩) := by
      rw [DecCtx.read, hread]
    have hgoal : decodeBody (.enum nm nv nl) out ⟨r, ends⟩
        = if o % 256 < nv then .ok (.enumOrd (o % 256), ⟨r', ends⟩)
          else .error .outOfBounds := by
      simp only [decodeBody]
      rw [hreadc]
    rw [hgoal, show o % 256 = o from by omega, if_pos ho]
    simp only [tailBufsBody, flat, List.length_nil, Nat.sub_zero]

theorem simBody_int_unbounded {nm : String} {mn mx : Option Int} {nl : Bool} {i : Int}
    {c c' : EncCtx}
    (hnb : mn = none ∨ mx = none) (hi1 : 0 < i) (hi2 : i < 2^31)
    (hW : c.writer.WF)
    (henc : encodeBody (.int nm mn mx nl) (.int i) c = .ok c') :
    EncConc c c' (bitsUsedBody (.int nm mn mx nl) (.int i))
      (tailBufsBody (.int nm mn mx nl) (.int i)) ∧
    SimDecB (.int nm mn mx nl) (.int i) c.writer c'.writer := by
  have hnl : nl.toNat ≤ 1 := by cases nl <;> simp
  have hu : toU64 i = i.toNat := toU64_toNat (by omega) (by omega)
  have hu1 : 1 ≤ i.toNat := by omega
  have hu2 : i.toNat < 2^31 := by omega
  have hw1 : 1 ≤ bitLen 64 (toU64 i) := by
    rw [hu]
    exact bitLen_pos (by omega) hu1
  have hw31 : bitLen 64 (toU64 i) ≤ 31 := by
    rw [hu]
    exact (bitLen_le_iff (by omega) 31).mpr (by omega)
  have hult : toU64 i < 2^(bitLen 64 (toU64 i)) := by
    rw [hu]
    exact lt_two_pow_bitLen (by omega)
  rcases mn with _ | mnv <;> rcases mx with _ | mxv
  case none.some | some.none | none.none =>
    all_goals (
    simp only [encodeBody] at henc
    (try simp only [Field.bits] at henc ⊢)
    rcases hw0 : EncCtx.write c (bitLen 64 (toU64 i)) (5 + nl.toNat) with e | c1
    · rw [hw0] at henc
      simp at henc
    rw [hw0] at henc
    have hbits5 : (5 + nl.toNat) ≤ 64 := by omega
    have hwlt : bitLen 64 (toU64 i) < 2^(5 + nl.toNat) := by
      have : (2:Nat)^5 ≤ 2^(5 + nl.toNat) := Nat.pow_le_pow_right (by omega) (by omega)
      omega
    obtain ⟨hW1, hbuf1, hval1, hlen1⟩ := EncCtx.write_spec hW hbits5 hwlt hw0
    obtain ⟨hW', hbuf', hval', hlen'⟩ :=
      EncCtx.write_spec hW1 (by omega) hult henc
    refine ⟨⟨hW', ?_, ?_, ?_⟩, ?_⟩
    · rw [hlen', hlen1]
      simp only [bitsUsedBody, Field.bits]
      omega
    · refine ⟨bitLen 64 (toU64 i) + toU64 i * 2^(5 + nl.toNat), ?_⟩
      rw [hval', hval1, hlen1]
      ring
    · rw [hbuf', hbuf1]
      simp only [tailBufsBody, List.append_nil]
    · intro out r ends ⟨hob, holen, hoval, hofit⟩ ⟨hr, hrb, hrp⟩ ⟨hends, _⟩
      have hglob1 : c1.writer.wVal = bytesToNat out % 2^c1.writer.wLen :=
        glob_mono (D := toU64 i) hval' (BitWriter.wVal_lt hW1) (by omega) hoval
      obtain ⟨r1, hread1, hr1, hrb1, hrp1⟩ :=
        read_step hob hr hrb hrp hval1 hlen1 (BitWriter.wVal_lt hW) hglob1
          (by omega) (by omega) (by omega) hwlt
      obtain ⟨r', hread2, hr', hrb', hrp'⟩ :=
        read_step hob hr1 hrb1 hrp1 hval' hlen' (BitWriter.wVal_lt hW1) hoval hofit
          (by omega) (by omega) hult
      refine ⟨r', ?_, hr', hrb', hrp'⟩
      have hreadc1 : DecCtx.read ⟨r, ends⟩ (5 + nl.toNat)
          = .ok (bitLen 64 (toU64 i), ⟨r1, ends⟩) := by
        rw [DecCtx.read, hread1]
      have hreadc2 : DecCtx.read ⟨r1, ends⟩ (bitLen 64 (toU64 i) % 256)
          = .ok (toU64 i, ⟨r', ends⟩) := by
        rw [show bitLen 64 (toU64 i) % 256 = bitLen 64 (toU64 i) from by omega,
          DecCtx.read, hread2]
      have hcast : ((toU64 i : Nat) : Int) = i := by
        rw [hu]
        omega
      simp only [decodeBody, Field.bits, hreadc1, hreadc2, hcast, tailBufsBody, flat,
        List.length_nil, Nat.sub_zero]
    )
  case some.some =>
    rcases hnb with h | h <;> simp at h

theorem simBody_bytes {nm : String} {ml : Option Nat} {nl : Bool} {bs : List Nat}
    {c c' : EncCtx}
    (hbits1 : 1 ≤ Field.bits (.bytes nm ml nl))
    (hbits64 : Field.bits (.bytes nm ml nl) < 64)
    (hW : c.writer.WF)
    (henc : encodeBody (.bytes nm ml nl) (.bytes bs) c = .ok c') :
    EncConc c c' (bitsUsedBody (.bytes nm ml nl) (.bytes bs))
      (tailBufsBody (.bytes nm ml nl) (.bytes bs)) ∧
    SimDecB (.bytes nm ml nl) (.bytes bs) c.writer c'.writer := by
  simp only [encodeBody] at henc
  by_cases hchk : ml.getD (satPow2u32 (satPow2u32 (Field.bits (.bytes nm ml nl)))) < 2^32 - 1
      ∧ bs.length > ml.getD (satPow2u32 (satPow2u32 (Field.bits (.bytes nm ml nl))))
  · rw [if_pos hchk] at henc
    simp at henc
  rw [if_neg hchk] at henc
  have hlenlt : bs.length < 2^(Field.bits (.bytes nm ml nl)) := by
    rcases EncCtx.write_bound henc with ⟨h64, h | h⟩
    · omega
    · exact h
  obtain ⟨hW', hbuf', hval', hlen'⟩ :=
    EncCtx.write_spec (c := ⟨c.writer, c.buffers ++ [bs]⟩) hW (by omega) hlenlt henc
  refine ⟨⟨hW', ?_, ⟨bs.length, hval'⟩, ?_⟩, ?_⟩
  · rw [hlen']
    simp only [bitsUsedBody]
  · rw [hbuf']
    simp only [tailBufsBody]
  · intro out r ends ⟨hob, holen, hoval, hofit⟩ ⟨hr, hrb, hrp⟩ ⟨hends, P, hP⟩
    simp only [tailBufsBody, List.reverse_cons, List.reverse_nil, List.nil_append,
      flat, List.append_nil] at hP
    obtain ⟨r', hread, hr', hrb', hrp'⟩ :=
      read_step hob hr hrb hrp hval' hlen' (BitWriter.wVal_lt hW) hoval hofit
        (by omega) (by omega) hlenlt
    refine ⟨r', ?_, hr', hrb', hrp'⟩
    have hreadc : DecCtx.read ⟨r, ends⟩ (Field.bits (.bytes nm ml nl))
        = .ok (bs.length, ⟨r', ends⟩) := by
      rw [DecCtx.read, hread]
    obtain ⟨hXle, _⟩ := take_peel hends hP
    have hsub : subUsize ends bs.length = ends - bs.length := subUsize_eq hXle (by omega)
    have hcond : ends - bs.length ≤ ends ∧ ends ≤ out.length := ⟨by omega, hends⟩
    have hslice : (out.drop (ends - bs.length)).take (ends - (ends - bs.length)) = bs :=
      take_slice hends hP
    simp only [decodeBody, hreadc, hsub]
    rw [if_pos hcond]
    simp only [hslice, tailBufsBody, flat, List.append_nil]

theorem bitsUsed_eq_body {f : Field} {v : Value} (h : f.nullable = false) :
    bitsUsed f v = bitsUsedBody f v := by
  rw [bitsUsed.eq_def]
  simp [h]

theorem bitsUsed_some {f : Field} {v1 : Value} (h : f.nullable = true) :
    bitsUsed f (.opt (some v1)) = 1 + bitsUsedBody f v1 := by
  simp [bitsUsed, h]

theorem bitsUsed_none {f : Field} (h : f.nullable = true) :
    bitsUsed f (.opt none) = 1 := by
  simp [bitsUsed, h]

theorem tailBufs_eq_body {f : Field} {v : Value} (h : f.nullable = false) :
    tailBufs f v = tailBufsBody f v := by
  rw [tailBufs.eq_def]
  simp [h]

theorem tailBufs_some {f : Field} {v1 : Value} (h : f.nullable = true) :
    tailBufs f (.opt (some v1)) = tailBufsBody f v1 := by
  simp [tailBufs, h]

theorem tailBufs_none {f : Field} (h : f.nullable = true) :
    tailBufs f (.opt none) = [] := by
  simp [tailBufs, h]

theorem encodeField_notNull {f : Field} {v : Value} {c : EncCtx} (h : f.nullable = false) :
    encodeField f v c = encodeBody f v c := by
  rw [encodeField.eq_def]
  simp [h]

theorem encodeField_some {f : Field} {v1 : Value} {c : EncCtx} (h : f.nullable = true) :
    encodeField f (.opt (some v1)) c
      = match c.write 1 1 with
        | .error e => .error e
        | .ok c1 => encodeBody f v1 c1 := by
  simp [encodeField, h]

theorem encodeField_none {f : Field} {c : EncCtx} (h : f.nullable = true) :
    encodeField f (.opt none) c = c.write 0 1 := by
  simp [encodeField, h]

theorem decodeField_notNull {f : Field} {input : List Nat} {c : DecCtx}
    (h : f.nullable = false) :
    decodeField f input c = decodeBody f input c := by
  simp [decodeField, h]

theorem decodeField_null {f : Field} {input : List Nat} {c : DecCtx}
    (h : f.nullable = true) :
    decodeField f input c
      = match c.read 1 with
        | .error e => .error e
        | .ok (b, c1) =>
          if b = 1 then
            match decodeBody f input c1 with
            | .error e => .error e
            | .ok (v, c2) => .ok (.opt (some v), c2)
          else
            .ok (.opt none, c1) := by
  simp [decodeField, h]

/-! ### The mutual encode/decode simulation -/

mutual

/-- Encoding one field (presence bit included) and decoding it back from
the final stream. -/
theorem simField (f : Field) (v : Value) (c c' : EncCtx)
    (hwf : WFField f) (hcv : Compat f v) (hW : c.writer.WF)
    (henc : encodeField f v c = .ok c') :
    EncConc c c' (bitsUsed f v) (tailBufs f v) ∧ SimDecF f v c.writer c'.writer := by
  cases hcv with
  | notNull hn hc =>
    rw [encodeField_notNull hn] at henc
    obtain ⟨hconc, hdec⟩ := simBody f v c c' hwf hc hW henc
    refine ⟨by rw [bitsUsed_eq_body hn, tailBufs_eq_body hn]; exact hconc, ?_⟩
    intro out r ends hout hra htail
    rw [tailBufs_eq_body hn] at htail
    obtain ⟨r', hd, hra'⟩ := hdec out r ends hout hra htail
    refine ⟨r', ?_, hra'⟩
    rw [decodeField_notNull hn, tailBufs_eq_body hn]
    exact hd
  | @isSome _ v1 hn hc =>
    rw [encodeField_some hn] at henc
    rcases hw0 : c.write 1 1 with e | c1
    · rw [hw0] at henc
      simp at henc
    rw [hw0] at henc
    obtain ⟨hW1, hbuf1, hval1, hlen1⟩ := EncCtx.write_spec hW (by decide) (by decide) hw0
    obtain ⟨⟨hW', hlen2, ⟨D2, hval2⟩, hbuf2⟩, hdec⟩ := simBody f v1 c1 c' hwf hc hW1 henc
    refine ⟨⟨hW', ?_, ⟨1 + D2 * 2, ?_⟩, ?_⟩, ?_⟩
    · rw [hlen2, hlen1, bitsUsed_some hn]
      omega
    · rw [hval2, hval1, hlen1]
      ring
    · rw [hbuf2, hbuf1, tailBufs_some hn]
    · intro out r ends hout hra htail
      obtain ⟨hob, holen, hoval, hofit⟩ := hout
      obtain ⟨hr, hrb, hrp⟩ := hra
      rw [tailBufs_some hn] at htail
      have hglob1 : c1.writer.wVal = bytesToNat out % 2^c1.writer.wLen :=
        glob_mono hval2 (BitWriter.wVal_lt hW1) (by omega) hoval
      obtain ⟨r1, hread1, hr1, hrb1, hrp1⟩ :=
        read_step hob hr hrb hrp hval1 hlen1 (BitWriter.wVal_lt hW) hglob1
          (by omega) (by decide) (by decide) (by decide)
      obtain ⟨r', hd, hra'⟩ := hdec out r1 ends ⟨hob, holen, hoval, hofit⟩
        ⟨hr1, hrb1, hrp1⟩ htail
      refine ⟨r', ?_, hra'⟩
      have hreadc : DecCtx.read ⟨r, ends⟩ 1 = .ok (1, ⟨r1, ends⟩) := by
        rw [DecCtx.read, hread1]
      rw [decodeField_null hn, tailBufs_some hn]
      simp only [hreadc]
      rw [if_pos trivial]
      simp only [hd]
  | isNone hn =>
    rw [encodeField_none hn] at henc
    obtain ⟨hW', hbuf', hval', hlen'⟩ := EncCtx.write_spec hW (by decide) (by decide) henc
    refine ⟨⟨hW', ?_, ⟨0, hval'⟩, ?_⟩, ?_⟩
    · rw [hlen', bitsUsed_none hn]
    · rw [hbuf', tailBufs_none hn, List.append_nil]
    · intro out r ends hout hra htail
      obtain ⟨hob, holen, hoval, hofit⟩ := hout
      obtain ⟨hr, hrb, hrp⟩ := hra
      obtain ⟨r1, hread1, hr1, hrb1, hrp1⟩ :=
        read_step hob hr hrb hrp hval' hlen' (BitWriter.wVal_lt hW) hoval hofit
          (by decide) (by decide) (by decide)
      refine ⟨r1, ?_, hr1, hrb1, hrp1⟩
      have hreadc : DecCtx.read ⟨r, ends⟩ 1 = .ok (0, ⟨r1, ends⟩) := by
        rw [DecCtx.read, hread1]
      rw [decodeField_null hn, tailBufs_none hn]
      simp only [hreadc]
      rw [if_neg (by decide : ¬ ((0 : Nat) = 1))]
      simp [flat]
termination_by (sizeOf f, 1, 0)

/-- Encoding one field body and decoding it back from the final stream. -/
theorem simBody (f : Field) (v : Value) (c c' : EncCtx)
    (hwf : WFField f) (hcv : CompatC f v) (hW : c.writer.WF)
    (henc : encodeBody f v c = .ok c') :
    EncConc c c' (bitsUsedBody f v) (tailBufsBody f v) ∧
    SimDecB f v c.writer c'.writer := by
  cases hcv with
  | int_bounded hi1 hi2 =>
    cases hwf with
    | int_bounded hmn hmnx hmx hspan =>
      exact simBody_int_bounded hmn hmnx hmx hspan hi1 hi2 hW henc
    | int_unbounded hnb => rcases hnb with h | h <;> simp at h
  | int_unbounded hnb hi1 hi2 =>
    exact simBody_int_unbounded hnb hi1 hi2 hW henc
  | boolean => exact simBody_boolean hW henc
  | @bytes nm ml nl bs hb =>
    have hnl : nl.toNat ≤ 1 := by cases nl <;> simp
    cases hwf with
    | @bytes_bounded _ l _ hl1 hl2 =>
      have hbl1 : 1 ≤ bitLen 32 l := bitLen_pos (by omega) hl1
      have hbl2 : bitLen 32 l ≤ 32 := bitLen_le _ _
      refine simBody_bytes ?_ ?_ hW henc
      · simp only [Field.bits]
        omega
      · simp only [Field.bits]
        omega
    | bytes_unbounded =>
      refine simBody_bytes ?_ ?_ hW henc
      · simp only [Field.bits]
        omega
      · simp only [Field.bits]
        omega
  | enum ho =>
    cases hwf with
    | enum h1 h2 => exact simBody_enum h1 h2 ho hW henc
  | @record nm fs nl vs hvlen hcvz =>
    cases hwf with
    | record hwfs =>
      simp only [encodeBody] at henc
      obtain ⟨⟨hW', hlen', hD, hbuf'⟩, hdec⟩ := simFields fs vs c c' hwfs hcvz hvlen hW henc
      refine ⟨⟨hW', ?_, hD, ?_⟩, ?_⟩
      · rw [hlen']
        simp only [bitsUsedBody]
      · rw [hbuf']
        simp only [tailBufsBody]
      · intro out r ends hout hra htail
        rw [show tailBufsBody (.record nm fs nl) (.record vs) = tailBufsFields fs vs
          from by simp only [tailBufsBody]] at htail
        obtain ⟨r', hd, hra'⟩ := hdec out r ends hout hra htail
        refine ⟨r', ?_, hra'⟩
        have hgoal : decodeBody (.record nm fs nl) out ⟨r, ends⟩
            = .ok (.record vs, ⟨r', ends - (flat (tailBufsFields fs vs)).length⟩) := by
          simp only [decodeBody, hd]
        simp only [tailBufsBody]
        exact hgoal
  | @array nm ml it nl vs hcvi =>
    cases hwf with
    | array hml1 hml2 hwit =>
      simp only [encodeBody] at henc
      have hnl : nl.toNat ≤ 1 := by cases nl <;> simp
      have hbl1 : 1 ≤ bitLen 32 ml := bitLen_pos (by omega) hml1
      have hbl2 : bitLen 32 ml ≤ 32 := bitLen_le _ _
      have hbits : Field.bits (.array nm ml it nl) = bitLen 32 ml + nl.toNat := by
        simp only [Field.bits]
      rcases hw0 : c.write vs.length (Field.bits (.array nm ml it nl)) with e | c1
      · rw [hw0] at henc
        simp at henc
      rw [hw0] at henc
      have hlenlt : vs.length < 2^(Field.bits (.array nm ml it nl)) := by
        rcases EncCtx.write_bound hw0 with ⟨h64, h | h⟩
        · omega
        · exact h
      obtain ⟨hW1, hbuf1, hval1, hlen1⟩ := EncCtx.write_spec hW (by omega) hlenlt hw0
      obtain ⟨⟨hW', hlen2, ⟨D2, hval2⟩, hbuf2⟩, hdec⟩ := simItems it vs c1 c' hwit hcvi hW1 henc
      refine ⟨⟨hW', ?_, ⟨vs.length + D2 * 2^(Field.bits (.array nm ml it nl)), ?_⟩, ?_⟩, ?_⟩
      · rw [hlen2, hlen1]
        simp only [bitsUsedBody]
        omega
      · rw [hval2, hval1, hlen1]
        ring
      · rw [hbuf2, hbuf1]
        simp only [tailBufsBody]
      · intro out r ends hout hra htail
        obtain ⟨hob, holen, hoval, hofit⟩ := hout
        obtain ⟨hr, hrb, hrp⟩ := hra
        rw [show tailBufsBody (.array nm ml it nl) (.arr vs) = tailBufsItems it vs
          from by simp only [tailBufsBody]] at htail
        have hglob1 : c1.writer.wVal = bytesToNat out % 2^c1.writer.wLen :=
          glob_mono hval2 (BitWriter.wVal_lt hW1) (by omega) hoval
        obtain ⟨r1, hread1, hr1, hrb1, hrp1⟩ :=
          read_step hob hr hrb hrp hval1 hlen1 (BitWriter.wVal_lt hW) hglob1
            (by omega) (by omega) (by omega) hlenlt
        obtain ⟨r', hd, hra'⟩ := hdec out r1 ends ⟨hob, holen, hoval, hofit⟩
          ⟨hr1, hrb1, hrp1⟩ htail
        refine ⟨r', ?_, hra'⟩
        have hreadc : DecCtx.read ⟨r, ends⟩ (Field.bits (.array nm ml it nl))
            = .ok (vs.length, ⟨r1, ends⟩) := by
          rw [DecCtx.read, hread1]
        have hgoal : decodeBody (.array nm ml it nl) out ⟨r, ends⟩
            = .ok (.arr vs, ⟨r', ends - (flat (tailBufsItems it vs)).length⟩) := by
          simp only [decodeBody, hreadc, hd]
        simp only [tailBufsBody]
        exact hgoal
termination_by (sizeOf f, 0, 0)

/-- Encoding a record field list and decoding it back. -/
theorem simFields (fs : List Field) (vs : List Value) (c c' : EncCtx)
    (hwf : ∀ f ∈ fs, WFField f) (hcv : ∀ p ∈ List.zip fs vs, Compat p.1 p.2)
    (hvlen : vs.length = fs.length) (hW : c.writer.WF)
    (henc : encodeFields fs vs c = .ok c') :
    EncConc c c' (bitsUsedFields fs vs) (tailBufsFields fs vs) ∧
    SimDecFs fs vs c.writer c'.writer := by
  cases fs with
  | nil =>
    cases vs with
    | cons v vs => simp [encodeFields] at henc
    | nil =>
      simp only [encodeFields, Except.ok.injEq] at henc
      subst henc
      refine ⟨⟨hW, ?_, ⟨0, by omega⟩, ?_⟩, ?_⟩
      · simp [bitsUsedFields]
      · simp [tailBufsFields]
      · intro out r ends hout hra htail
        obtain ⟨hr, hrb, hrp⟩ := hra
        refine ⟨r, ?_, hr, hrb, hrp⟩
        simp [decodeFields, tailBufsFields, flat]
  | cons f fs =>
    cases vs with
    | nil => simp [encodeFields] at henc
    | cons v vs =>
      simp only [encodeFields] at henc
      rcases h1 : encodeField f v c with e | c1
      · rw [h1] at henc
        simp at henc
      rw [h1] at henc
      have hwff : WFField f := hwf f (by simp)
      have hwfs : ∀ g ∈ fs, WFField g := fun g hg => hwf g (by simp [hg])
      have hcvf : Compat f v :=
        hcv (f, v) (by rw [List.zip_cons_cons]; exact List.mem_cons_self _ _)
      have hcvs : ∀ p ∈ List.zip fs vs, Compat p.1 p.2 := fun p hp =>
        hcv p (by rw [List.zip_cons_cons]; exact List.mem_cons_of_mem _ hp)
      have hvlen2 : vs.length = fs.length := by simpa using hvlen
      obtain ⟨⟨hW1, hlen1, ⟨D1, hval1⟩, hbuf1⟩, hdec1⟩ := simField f v c c1 hwff hcvf hW h1
      obtain ⟨⟨hW', hlen2, ⟨D2, hval2⟩, hbuf2⟩, hdec2⟩ :=
        simFields fs vs c1 c' hwfs hcvs hvlen2 hW1 henc
      refine ⟨⟨hW', ?_, ⟨D1 + D2 * 2^(bitsUsed f v), ?_⟩, ?_⟩, ?_⟩
      · rw [hlen2, hlen1]
        simp only [bitsUsedFields]
        omega
      · rw [hval2, hval1, hlen1]
        ring
      · rw [hbuf2, hbuf1]
        simp only [tailBufsFields, List.append_assoc]
      · intro out r ends hout hra htail
        obtain ⟨hob, holen, hoval, hofit⟩ := hout
        obtain ⟨hends, P, hP⟩ := htail
        have hPsplit : out.take ends
            = (P ++ flat (tailBufsFields fs vs).reverse) ++ flat (tailBufs f v).reverse := by
          rw [hP]
          simp only [tailBufsFields, List.reverse_append, flat_append, List.append_assoc]
        obtain ⟨hXle, hPeel⟩ := take_peel hends hPsplit
        rw [flat_length_reverse] at hXle hPeel
        have hoval1 : c1.writer.wVal = bytesToNat out % 2^c1.writer.wLen :=
          glob_mono hval2 (BitWriter.wVal_lt hW1) (by omega) hoval
        obtain ⟨r1, hd1, hra1⟩ := hdec1 out r ends ⟨hob, holen, hoval1, by omega⟩ hra
          ⟨hends, P ++ flat (tailBufsFields fs vs).reverse, hPsplit⟩
        obtain ⟨r', hd2, hra'⟩ := hdec2 out r1 (ends - (flat (tailBufs f v)).length)
          ⟨hob, holen, hoval, hofit⟩ hra1 ⟨by omega, P, hPeel⟩
        refine ⟨r', ?_, hra'⟩
        have hgoal : decodeFields (f :: fs) out ⟨r, ends⟩
            = .ok (v :: vs, ⟨r', ends - (flat (tailBufs f v)).length
                - (flat (tailBufsFields fs vs)).length⟩) := by
          simp only [decodeFields, hd1, hd2]
        have harith : ends - (flat (tailBufs f v)).length
            - (flat (tailBufsFields fs vs)).length
            = ends - (flat (tailBufsFields (f :: fs) (v :: vs))).length := by
          simp only [tailBufsFields, flat_append, List.length_append]
          omega
        rw [harith] at hgoal
        exact hgoal
termination_by (sizeOf fs, 2, 0)

/-- Encoding the items of an array and decoding them back. -/
theorem simItems (it : Field) (vs : List Value) (c c' : EncCtx)
    (hwf : WFField it) (hcv : ∀ v ∈ vs, Compat it v) (hW : c.writer.WF)
    (henc : encodeItems it vs c = .ok c') :
    EncConc c c' (bitsUsedItems it vs) (tailBufsItems it vs) ∧
    SimDecIs it vs c.writer c'.writer := by
  cases vs with
  | nil =>
    simp only [encodeItems, Except.ok.injEq] at henc
    subst henc
    refine ⟨⟨hW, ?_, ⟨0, by omega⟩, ?_⟩, ?_⟩
    · simp [bitsUsedItems]
    · simp [tailBufsItems]
    · intro out r ends hout hra htail
      obtain ⟨hr, hrb, hrp⟩ := hra
      refine ⟨r, ?_, hr, hrb, hrp⟩
      simp [decodeItems, tailBufsItems, flat]
  | cons v vs =>
    simp only [encodeItems] at henc
    rcases h1 : encodeField it v c with e | c1
    · rw [h1] at henc
      simp at henc
    rw [h1] at henc
    have hcvf : Compat it v := hcv v (by simp)
    have hcvs : ∀ u ∈ vs, Compat it u := fun u hu => hcv u (by simp [hu])
    obtain ⟨⟨hW1, hlen1, ⟨D1, hval1⟩, hbuf1⟩, hdec1⟩ := simField it v c c1 hwf hcvf hW h1
    obtain ⟨⟨hW', hlen2, ⟨D2, hval2⟩, hbuf2⟩, hdec2⟩ :=
      simItems it vs c1 c' hwf hcvs hW1 henc
    refine ⟨⟨hW', ?_, ⟨D1 + D2 * 2^(bitsUsed it v), ?_⟩, ?_⟩, ?_⟩
    · rw [hlen2, hlen1]
      simp only [bitsUsedItems]
      omega
    · rw [hval2, hval1, hlen1]
      ring
    · rw [hbuf2, hbuf1]
      simp only [tailBufsItems, List.append_assoc]
    · intro out r ends hout hra htail
      obtain ⟨hob, holen, hoval, hofit⟩ := hout
      obtain ⟨hends, P, hP⟩ := htail
      have hPsplit : out.take ends
          = (P ++ flat (tailBufsItems it vs).reverse) ++ flat (tailBufs it v).reverse := by
        rw [hP]
        simp only [tailBufsItems, List.reverse_append, flat_append, List.append_assoc]
      obtain ⟨hXle, hPeel⟩ := take_peel hends hPsplit
      rw [flat_length_reverse] at hXle hPeel
      have hoval1 : c1.writer.wVal = bytesToNat out % 2^c1.writer.wLen :=
        glob_mono hval2 (BitWriter.wVal_lt hW1) (by omega) hoval
      obtain ⟨r1, hd1, hra1⟩ := hdec1 out r ends ⟨hob, holen, hoval1, by omega⟩ hra
        ⟨hends, P ++ flat (tailBufsItems it vs).reverse, hPsplit⟩
      obtain ⟨r', hd2, hra'⟩ := hdec2 out r1 (ends - (flat (tailBufs it v)).length)
        ⟨hob, holen, hoval, hofit⟩ hra1 ⟨by omega, P, hPeel⟩
      refine ⟨r', ?_, hra'⟩
      have hgoal : decodeItems it out (v :: vs).length ⟨r, ends⟩
          = .ok (v :: vs, ⟨r', ends - (flat (tailBufs it v)).length
              - (flat (tailBufsItems it vs)).length⟩) := by
        simp only [List.length_cons, decodeItems, hd1, hd2]
      have harith : ends - (flat (tailBufs it v)).length
          - (flat (tailBufsItems it vs)).length
          = ends - (flat (tailBufsItems it (v :: vs))).length := by
        simp only [tailBufsItems, flat_append, List.length_append]
        omega
      rw [harith] at hgoal
      exact hgoal
termination_by (sizeOf it, 2, sizeOf vs)

end

theorem mem_flat {A : List (List Nat)} {b : Nat} (h : b ∈ flat A) :
    ∃ bs ∈ A, b ∈ bs := by
  induction A with
  | nil => simp [flat] at h
  | cons x xs ih =>
    simp only [flat, List.mem_append] at h
    rcases h with h | h
    · exact ⟨x, by simp, h⟩
    · obtain ⟨bs, h1, h2⟩ := ih h
      exact ⟨bs, by simp [h1], h2⟩

mutual

/-- Every byte a field pushes onto the tail buffers is a byte value. -/
theorem tailBufs_lt (f : Field) (v : Value) (hcv : Compat f v) :
    ∀ bs ∈ tailBufs f v, ∀ b ∈ bs, b < 256 := by
  cases hcv with
  | notNull hn hc =>
    rw [tailBufs_eq_body hn]
    exact tailBufsBody_lt f v hc
  | @isSome _ v1 hn hc =>
    rw [tailBufs_some hn]
    exact tailBufsBody_lt f v1 hc
  | isNone hn =>
    rw [tailBufs_none hn]
    intro bs h
    simp at h
termination_by (sizeOf f, 1, 0)
decreasing_by
  all_goals (subst_vars; decreasing_tactic)

theorem tailBufsBody_lt (f : Field) (v : Value) (hcv : CompatC f v) :
    ∀ bs ∈ tailBufsBody f v, ∀ b ∈ bs, b < 256 := by
  cases hcv with
  | int_bounded hi1 hi2 =>
    intro bs h
    simp [tailBufsBody] at h
  | int_unbounded hnb hi1 hi2 =>
    intro bs h
    simp [tailBufsBody] at h
  | boolean =>
    intro bs h
    simp [tailBufsBody] at h
  | enum ho =>
    intro bs h
    simp [tailBufsBody] at h
  | @bytes nm ml nl bs0 hb =>
    intro bs h
    simp only [tailBufsBody, List.mem_singleton] at h
    subst h
    exact hb
  | @record nm fs nl vs hvlen hz =>
    intro bs h
    simp only [tailBufsBody] at h
    exact tailBufsFields_lt fs vs hz bs h
  | @array nm ml it nl vs hvi =>
    intro bs h
    simp only [tailBufsBody] at h
    exact tailBufsItems_lt it vs hvi bs h
termination_by (sizeOf f, 0, 0)
decreasing_by
  all_goals (subst_vars; decreasing_tactic)

theorem tailBufsFields_lt (fs : List Field) (vs : List Value)
    (hcv : ∀ p ∈ List.zip fs vs, Compat p.1 p.2) :
    ∀ bs ∈ tailBufsFields fs vs, ∀ b ∈ bs, b < 256 := by
  cases fs with
  | nil =>
    intro bs h
    simp [tailBufsFields] at h
  | cons f fs =>
    cases vs with
    | nil =>
      intro bs h
      simp [tailBufsFields] at h
    | cons v vs =>
      intro bs h
      simp only [tailBufsFields, List.mem_append] at h
      rcases h with h | h
      · exact tailBufs_lt f v
          (hcv (f, v) (by rw [List.zip_cons_cons]; exact List.mem_cons_self _ _)) bs h
      · exact tailBufsFields_lt fs vs
          (fun p hp => hcv p (by rw [List.zip_cons_cons]; exact List.mem_cons_of_mem _ hp))
          bs h
termination_by (sizeOf fs, 2, 0)
decreasing_by
  all_goals (subst_vars; decreasing_tactic)

theorem tailBufsItems_lt (it : Field) (vs : List Value)
    (hcv : ∀ v ∈ vs, Compat it v) :
    ∀ bs ∈ tailBufsItems it vs, ∀ b ∈ bs, b < 256 := by
  cases vs with
  | nil =>
    intro bs h
    simp [tailBufsItems] at h
  | cons v vs =>
    intro bs h
    simp only [tailBufsItems, List.mem_append] at h
    rcases h with h | h
    · exact tailBufs_lt it v (hcv v (by simp)) bs h
    · exact tailBufsItems_lt it vs (fun u hu => hcv u (by simp [hu])) bs h
termination_by (sizeOf it, 2, sizeOf vs)
decreasing_by
  all_goals (subst_vars; decreasing_tactic)

end

/-- Round trip of the generated encoder and decoder over a well-formed
schema and a compatible record value. -/
theorem encode_decode_roundtrip {fields : List Field} {vs : List Value} {out : List Nat}
    (hwf : ∀ f ∈ fields, WFField f)
    (hcv : ∀ p ∈ List.zip fields vs, Compat p.1 p.2)
    (hvlen : vs.length = fields.length)
    (hsz : out.length < 2^64)
    (henc : encodeRecord fields vs = .ok out) :
    decodeRecord fields out = .ok vs := by
  simp only [encodeRecord] at henc
  rcases h1 : encodeFields fields vs ⟨BitWriter.with_capacity 0, []⟩ with e | c
  · rw [h1] at henc
    simp at henc
  rw [h1] at henc
  simp only [Except.ok.injEq] at henc
  subst henc
  have hW0 : (⟨BitWriter.with_capacity 0, []⟩ : EncCtx).writer.WF :=
    BitWriter.with_capacity_WF 0
  obtain ⟨⟨hW', hlen', ⟨D, hval'⟩, hbuf'⟩, hdec⟩ :=
    simFields fields vs ⟨BitWriter.with_capacity 0, []⟩ c hwf hcv hvlen hW0 h1
  obtain ⟨hbn, hbb, hblen, hbfit⟩ := BitWriter.into_bytes_spec hW'
  have hbufs : c.buffers = tailBufsFields fields vs := by
    rw [hbuf']
    simp
  have hball : ∀ b ∈ c.writer.into_bytes ++ flat c.buffers.reverse, b < 256 := by
    intro b hb
    rcases List.mem_append.mp hb with h | h
    · exact hbb b h
    · obtain ⟨bs, hbs, hbbs⟩ := mem_flat h
      rw [List.mem_reverse, hbufs] at hbs
      exact tailBufsFields_lt fields vs hcv bs hbs b hbbs
  have hoval : c.writer.wVal
      = bytesToNat (c.writer.into_bytes ++ flat c.buffers.reverse) % 2^c.writer.wLen := by
    rw [bytesToNat_append, hbn]
    have h2 : (256:Nat)^c.writer.into_bytes.length * bytesToNat (flat c.buffers.reverse)
        = (2^(8 * c.writer.into_bytes.length - c.writer.wLen)
            * bytesToNat (flat c.buffers.reverse)) * 2^c.writer.wLen := by
      rw [pow256_eq_pow2,
        show (2:Nat)^(8 * c.writer.into_bytes.length)
            = 2^(8 * c.writer.into_bytes.length - c.writer.wLen) * 2^c.writer.wLen
          from by rw [← Nat.pow_add]; congr 1; omega]
      ring
    rw [h2, Nat.add_mul_mod_self_right, Nat.mod_eq_of_lt (BitWriter.wVal_lt hW')]
  have hofit : c.writer.wLen
      ≤ 8 * (c.writer.into_bytes ++ flat c.buffers.reverse).length := by
    rw [List.length_append]
    omega
  have htail : TailOK (c.writer.into_bytes ++ flat c.buffers.reverse)
      (c.writer.into_bytes ++ flat c.buffers.reverse).length (tailBufsFields fields vs) := by
    refine ⟨le_refl _, c.writer.into_bytes, ?_⟩
    rw [List.take_length, hbufs]
  have hra0 : RAligned (c.writer.into_bytes ++ flat c.buffers.reverse)
      (BitReader.new (c.writer.into_bytes ++ flat c.buffers.reverse))
      (⟨BitWriter.with_capacity 0, []⟩ : EncCtx).writer.wLen :=
    ⟨BitReader.new_RWF _, rfl, rfl⟩
  obtain ⟨r', hdf, _⟩ := hdec (c.writer.into_bytes ++ flat c.buffers.reverse)
    (BitReader.new (c.writer.into_bytes ++ flat c.buffers.reverse))
    (c.writer.into_bytes ++ flat c.buffers.reverse).length
    ⟨hball, hsz, hoval, hofit⟩ hra0 htail
  simp only [decodeRecord, hdf]

/-- The inverse loop bodies: with no underscores in the input, decoding the
snake form of a tail (flag off on both sides) restores it. -/
theorem camel_snake_go_round {s : List Nat} (h95 : ∀ c ∈ s, c ≠ 95) :
    snake_to_camel_go false (camel_to_snake_go false s) = s := by
  induction s with
  | nil => rfl
  | cons c rest ih =>
    have hc : c ≠ 95 := h95 c (by simp)
    have hrest : ∀ x ∈ rest, x ≠ 95 := fun x hx => h95 x (by simp [hx])
    by_cases hu : is_uppercase c = true
    · have h1 : 65 ≤ c ∧ c ≤ 90 := by simpa [is_uppercase] using hu
      have e1 : camel_to_snake_go false (c :: rest)
          = 95 :: (c + 32) :: camel_to_snake_go false rest := by
        simp [camel_to_snake_go, hu, to_ascii_lowercase, h1.1, h1.2]
      rw [e1]
      have e2 : snake_to_camel_go false (95 :: (c + 32) :: camel_to_snake_go false rest)
          = to_ascii_uppercase (c + 32)
              :: snake_to_camel_go false (camel_to_snake_go false rest) := by
        simp [snake_to_camel_go, show ¬ (c + 32 = 95) from by omega]
      have e3 : to_ascii_uppercase (c + 32) = c := by
        simp only [to_ascii_uppercase]
        rw [if_pos (by omega)]
        omega
      rw [e2, e3, ih hrest]
    · have hu' : is_uppercase c = false := by simpa using hu
      have e1 : camel_to_snake_go false (c :: rest) = c :: camel_to_snake_go false rest := by
        simp [camel_to_snake_go, hu']
      rw [e1]
      have e2 : snake_to_camel_go false (c :: camel_to_snake_go false rest)
          = c :: snake_to_camel_go false (camel_to_snake_go false rest) := by
        simp [snake_to_camel_go, hc]
      rw [e2, ih hrest]

/-- The eight 32-bit-wide children of the C9 record. -/
def c9Fields : List Field :=
  [.int "c" (some 0) (some 2147483647) false, .int "c" (some 0) (some 2147483647) false,
   .int "c" (some 0) (some 2147483647) false, .int "c" (some 0) (some 2147483647) false,
   .int "c" (some 0) (some 2147483647) false, .int "c" (some 0) (some 2147483647) false,
   .int "c" (some 0) (some 2147483647) false, .int "c" (some 0) (some 2147483647) false]

/-! ### Claims -/

/-- C1.  The round trip `decode(encode(v)) = v` does not hold for every
schema-compatible value: for a record of two unbounded Int fields with
values `0` and `1`, the encoder succeeds (width tag 0, no payload bits for
the zero), but the decoder's ensuing 0-width read returns the low bits of
the staging buffer — here the bits of the *next* field — instead of 0, so
the first field decodes to 33.  (The spec itself requires a 0-width read to
yield 0; the live release-profile `BitReader::read` computes an all-ones
mask for `count = 0` via the wrapped `count - 1`.) -/
theorem claim_C1 :
    encodeRecord [.int "a" none none false, .int "b" none none false]
      [.int 0, .int 1] = .ok [32, 4] ∧
    decodeRecord [.int "a" none none false, .int "b" none none false]
      [32, 4] = .ok [.int 33, .int 1] ∧
    ¬ (([.int 33, .int 1] : List Value) = [.int 0, .int 1]) := by
  refine ⟨?_, ?_, by simp⟩
  · simp [encodeRecord, encodeFields, encodeField, encodeBody, EncCtx.write, BitWriter.write,
      BitWriter.with_capacity, BitWriter.into_bytes, Field.bits, Field.nullable, bitLen,
      toU64, wrap32, leBytes, flat, Nat.shiftLeft_eq]
  · simp +decide [decodeRecord, decodeFields, decodeField, decodeBody, DecCtx.read,
      BitReader.read, BitReader.new, Field.bits, Field.nullable, bitLen, wrap32, rustMaskU64,
      loadLE8, loadLE, DecodeError.fromRead, Nat.shiftLeft_eq, Nat.shiftRight_eq_div_pow]

/-- C2.  A present optional consumes `1 + bitsUsedBody` bits and an absent
optional consumes exactly 1 bit with no payload bits and no tail bytes.
The claim's `1 + payload_width` (payload width excluding the nullability
flag) is off by one for the kinds whose wire width is the stored
`field.bits()`: that width already counts the nullability flag, so a
present nullable bounded Int spends `1 + (payload + 1)` bits (see the
counterexample). -/
theorem claim_C2 {f : Field} {v1 : Value} (h : f.nullable = true) :
    bitsUsed f (.opt (some v1)) = 1 + bitsUsedBody f v1 ∧
    bitsUsed f (.opt none) = 1 ∧
    tailBufs f (.opt none) = [] :=
  ⟨bitsUsed_some h, bitsUsed_none h, tailBufs_none h⟩

/-- C2 witness: the nullable Boolean field, present value. -/
theorem claim_C2_witness :
    Field.nullable (.boolean "b" true) = true ∧
    bitsUsed (.boolean "b" true) (.opt (some (.bool true)))
      = 1 + bitsUsedBody (.boolean "b" true) (.bool true) :=
  ⟨rfl, (@claim_C2 (.boolean "b" true) (.bool true) rfl).1⟩

/-- C2 counterexample: a nullable Int with `min 0`, `max 2` has payload
width `⌈log₂ 3⌉ = bitLen 3 = 2`, so the claim predicts `1 + 2 = 3` bits
for a present value, but the encoder spends 4 bits: the prefix width
`field.bits() = bitLen 3 + 1 = 3` already includes the nullability flag. -/
theorem claim_C2_counterexample :
    bitsUsed (.int "x" (some 0) (some 2) true) (.opt (some (.int 1))) = 4 ∧
    1 + bitLen 32 3 = 3 := by
  constructor
  · simp +decide [bitsUsed, bitsUsedBody, Field.bits, bitLen]
  · decide

/-- C3.  For a bounded Int field the stored width is
`bitLen (max - min + 1) = ⌊log₂ span⌋ + 1`, not `⌈log₂ span⌉`: the source
computes `32 - (max - min + 1).leading_zeros()`.  The two agree unless the
span is a power of two.  The spec's own example (min 10, max 13, span 4)
therefore has width 3, not 2 — though encoding `{x:12}` still yields the
single byte `0x02`, because the 3-bit payload `010` pads to the same
byte. -/
theorem claim_C3 {nm : String} {mn mx : Int}
    (h1 : -2^31 ≤ mn) (h2 : mn ≤ mx) (h3 : mx < 2^31) (h4 : mx - mn + 1 < 2^32) :
    Field.bits (.int nm (some mn) (some mx) false) = bitLen 32 (mx - mn + 1).toNat ∧
    encodeRecord [.int "x" (some 10) (some 13) false] [.int 12] = .ok [2] := by
  constructor
  · have hmod : (mx - mn + 1) % (2^32 : Int) = mx - mn + 1 := by omega
    simp only [Field.bits, Bool.toNat_false, Nat.add_zero, hmod]
  · simp [encodeRecord, encodeFields, encodeField, encodeBody, EncCtx.write, BitWriter.write,
      BitWriter.with_capacity, BitWriter.into_bytes, Field.bits, Field.nullable, bitLen,
      toU64, wrap32, leBytes, flat, Nat.shiftLeft_eq]

/-- C3 witness: the spec's example field (min 10, max 13). -/
theorem claim_C3_witness :
    ((-2^31 : Int) ≤ 10 ∧ (10:Int) ≤ 13 ∧ (13:Int) < 2^31 ∧ (13 - 10 + 1 : Int) < 2^32) ∧
    Field.bits (.int "y" (some 10) (some 13) false) = bitLen 32 ((13 - 10 + 1 : Int)).toNat :=
  ⟨by norm_num,
    (claim_C3 (by norm_num) (by norm_num) (by norm_num) (by norm_num)).1⟩

/-- C3 counterexample: the claimed width for the span-4 example is 2; the
code's width is 3. -/
theorem claim_C3_counterexample :
    Field.bits (.int "x" (some 10) (some 13) false) = 3 ∧ (3:Nat) ≠ 2 := by
  constructor
  · simp +decide [Field.bits, bitLen]
  · decide

/-- C4 (amended).  The encoded stream is the finalized bit buffer followed
by the collected byte payloads in reverse order of encounter
(`buffers.reverse`, with `buffers` the encounter-ordered `tailBufsFields`),
and the decoder's backward-moving tail cursor recovers every Bytes field
exactly, so the whole record round-trips — provided no Bytes field has a
zero-width length tag (`WFField` requires `1 ≤ maxLength`).  The claim as
stated is false for the spec-legal `maxLength: 0`: its length tag is 0 bits
wide, and the release-profile 0-width read returns the staged bits instead
of 0, so such a field decodes to bytes that were never encoded for it (see
the counterexample). -/
theorem claim_C4 {fields : List Field} {vs : List Value} {out : List Nat}
    (hwf : ∀ f ∈ fields, WFField f)
    (hcv : ∀ p ∈ List.zip fields vs, Compat p.1 p.2)
    (hvlen : vs.length = fields.length)
    (hsz : out.length < 2^64)
    (henc : encodeRecord fields vs = .ok out) :
    (∃ c : EncCtx, encodeFields fields vs ⟨BitWriter.with_capacity 0, []⟩ = .ok c ∧
        out = c.writer.into_bytes ++ flat c.buffers.reverse ∧
        c.buffers = tailBufsFields fields vs) ∧
    decodeRecord fields out = .ok vs := by
  refine ⟨?_, encode_decode_roundtrip hwf hcv hvlen hsz henc⟩
  simp only [encodeRecord] at henc
  rcases h1 : encodeFields fields vs ⟨BitWriter.with_capacity 0, []⟩ with e | c
  · rw [h1] at henc
    simp at henc
  rw [h1] at henc
  simp only [Except.ok.injEq] at henc
  obtain ⟨⟨hW', hl, hD, hbuf'⟩, hdec⟩ :=
    simFields fields vs ⟨BitWriter.with_capacity 0, []⟩ c hwf hcv hvlen
      (BitWriter.with_capacity_WF 0) h1
  refine ⟨c, rfl, henc.symm, ?_⟩
  rw [hbuf']
  simp

/-- C4 witness: two Bytes fields; the tail is `[0xBB, 0xCC]` (the second,
last-encountered field) immediately after the bit buffer byte `0x05`, then
`[0xAA]` (the first field), and decode returns the original values. -/
theorem claim_C4_witness :
    encodeRecord [.bytes "a" (some 1) false, .bytes "b" (some 2) false]
      [.bytes [170], .bytes [187, 204]] = .ok [5, 187, 204, 170] ∧
    decodeRecord [.bytes "a" (some 1) false, .bytes "b" (some 2) false]
      [5, 187, 204, 170] = .ok [.bytes [170], .bytes [187, 204]] := by
  have henc : encodeRecord [.bytes "a" (some 1) false, .bytes "b" (some 2) false]
      [.bytes [170], .bytes [187, 204]] = .ok [5, 187, 204, 170] := by
    simp [encodeRecord, encodeFields, encodeField, encodeBody, EncCtx.write, BitWriter.write,
      BitWriter.with_capacity, BitWriter.into_bytes, Field.bits, Field.nullable, bitLen,
      toU64, wrap32, leBytes, flat, satPow2u32, Nat.shiftLeft_eq]
  refine ⟨henc, (claim_C4 ?_ ?_ ?_ ?_ henc).2⟩
  · intro f hf
    simp only [List.mem_cons, List.not_mem_nil, or_false] at hf
    rcases hf with rfl | rfl
    · exact WFField.bytes_bounded (by omega) (by norm_num)
    · exact WFField.bytes_bounded (by omega) (by norm_num)
  · intro p hp
    simp only [List.zip_cons_cons, List.zip_nil_right, List.mem_cons,
      List.not_mem_nil, or_false] at hp
    rcases hp with rfl | rfl
    · exact Compat.notNull rfl (CompatC.bytes (by decide))
    · exact Compat.notNull rfl (CompatC.bytes (by decide))
  · rfl
  · norm_num

/-- C4 counterexample: a Bytes field with `maxLength: 0` has a 0-bit
length tag.  Encoding `{x: 0, a: [], y: true}` over
`{x: int[0,16], a: bytes maxLength 0, y: bool}` yields the single byte
`0x20`, but on decode the 0-width length read returns the staged bit 1
(the Boolean field's bit), so `a` decodes to `[0x20]` — one byte that was
never encoded for it — not `[]`. -/
theorem claim_C4_counterexample :
    encodeRecord [.int "x" (some 0) (some 16) false, .bytes "a" (some 0) false,
        .boolean "y" false]
      [.int 0, .bytes [], .bool true] = .ok [32] ∧
    decodeRecord [.int "x" (some 0) (some 16) false, .bytes "a" (some 0) false,
        .boolean "y" false] [32]
      = .ok [.int 0, .bytes [32], .bool true] ∧
    ¬ ((.bytes [32] : Value) = .bytes []) := by
  refine ⟨?_, ?_, by simp⟩
  · simp [encodeRecord, encodeFields, encodeField, encodeBody, EncCtx.write, BitWriter.write,
      BitWriter.with_capacity, BitWriter.into_bytes, Field.bits, Field.nullable, bitLen,
      toU64, wrap32, leBytes, flat, satPow2u32, Nat.shiftLeft_eq]
  · simp +decide [decodeRecord, decodeFields, decodeField, decodeBody, DecCtx.read,
      BitReader.read, BitReader.new, Field.bits, Field.nullable, bitLen, wrap32, rustMaskU64,
      intDecodeValue, subUsize, loadLE8, loadLE, DecodeError.fromRead, Nat.shiftLeft_eq,
      Nat.shiftRight_eq_div_pow]

/-- C5.  `BitWriter::write` follows the staging algorithm: in the no-flush
case it ORs `value <<< filled` into the staging buffer and bumps `filled`;
in the flush case it emits 8 little-endian bytes and keeps the upper
`count - (64 - filled)` bits of `value` staged; `into_bytes` then appends
`⌈filled / 8⌉` further bytes whose value is exactly the staged bits
(`bytesToNat into_bytes = wVal`, zero padding in the last byte's high
bits). -/
theorem claim_C5 {w : BitWriter} {value count : Nat} (hwf : w.WF)
    (hc : count ≤ 64) (hv : value < 2^count) :
    (∃ w', w.write value count = .ok w' ∧ w'.WF ∧
        w'.wVal = w.wVal + value * 2^w.wLen ∧ w'.wLen = w.wLen + count ∧
        (w.buffer_filled + count ≤ 64 →
          w'.bytes = w.bytes ∧
          w'.buffer = w.buffer ||| value <<< w.buffer_filled ∧
          w'.buffer_filled = w.buffer_filled + count) ∧
        (w.buffer_filled + count > 64 →
          w'.bytes.length = w.bytes.length + 8 ∧
          w'.buffer = value >>> (64 - w.buffer_filled) ∧
          w'.buffer_filled = count - (64 - w.buffer_filled))) ∧
    bytesToNat w.into_bytes = w.wVal ∧
    w.into_bytes.length = w.bytes.length + (w.buffer_filled + 7) / 8 :=
  ⟨BitWriter.write_ok hwf hc hv, (BitWriter.into_bytes_spec hwf).1,
    (BitWriter.into_bytes_spec hwf).2.2.1⟩

/-- C5 witness: the fresh writer, one 1-bit write. -/
theorem claim_C5_witness :
    (BitWriter.with_capacity 0).WF ∧ (1:Nat) ≤ 64 ∧ (1:Nat) < 2^1 ∧
    bytesToNat (BitWriter.with_capacity 0).into_bytes = (BitWriter.with_capacity 0).wVal :=
  ⟨BitWriter.with_capacity_WF 0, by omega, by decide,
    (@claim_C5 (BitWriter.with_capacity 0) 1 1 (BitWriter.with_capacity_WF 0)
      (by omega) (by decide)).2.1⟩

/-- C6.  For `1 ≤ count ≤ 64` the reader fails with `NotEnoughBits` exactly
when fewer than `count` bits remain and otherwise returns the next `count`
bits of the stream; it never returns `InvalidBitCount`.  The claim's other
two assertions fail: the live read performs no `count > 64` check (a
`read 65` succeeds), and a 0-width read returns the low bits of the staging
buffer rather than 0 (see the counterexample). -/
theorem claim_C6 {r : BitReader} {count : Nat}
    (hb : ∀ b ∈ r.bytes, b < 256) (hwf : r.RWF)
    (h1 : 1 ≤ count) (h64 : count ≤ 64) :
    (8 * r.bytes.length - r.bit_position < count →
      r.read count = .error .notEnoughBits) ∧
    (r.bit_position + count ≤ 8 * r.bytes.length →
      ∃ r', r.read count = .ok (bytesToNat r.bytes / 2^r.bit_position % 2^count, r') ∧
        r'.RWF ∧ r'.bit_position = r.bit_position + count) ∧
    r.read count ≠ .error .invalidBitCount := by
  refine ⟨fun h => BitReader.read_err h, fun hav => ?_, BitReader.read_ne_invalid r count⟩
  obtain ⟨r', hok, hwf', hby, hpos, hfil⟩ := BitReader.read_ok hb hwf h1 h64 hav
  exact ⟨r', hok, hwf', hpos⟩

/-- C6 witness: an 8-bit read from a one-byte input. -/
theorem claim_C6_witness :
    (∀ b ∈ (BitReader.new [7]).bytes, b < 256) ∧ (1:Nat) ≤ 8 ∧ (8:Nat) ≤ 64 ∧
    (BitReader.new [7]).read 8 ≠ .error .invalidBitCount :=
  ⟨by decide, by omega, by omega,
    (claim_C6 (by decide) (BitReader.new_RWF [7]) (by omega) (by omega)).2.2⟩

/-- C6 counterexample: after a 5-bit read of `[0x20, 0x04]` the 0-width
read returns 33 (the remaining staged bits), not 0; and a 65-bit read on a
9-byte input succeeds instead of failing with `InvalidBitCount`. -/
theorem claim_C6_counterexample :
    (BitReader.new [32, 4]).read 5 = .ok (0, ⟨[32, 4], 5, 33, 59, 8⟩) ∧
    BitReader.read ⟨[32, 4], 5, 33, 59, 8⟩ 0 = .ok (33, ⟨[32, 4], 5, 33, 59, 8⟩) ∧
    (BitReader.new [1, 2, 3, 4, 5, 6, 7, 8, 9]).read 65
      = .ok (1, ⟨[1, 2, 3, 4, 5, 6, 7, 8, 9], 65, 0, 255, 8⟩) :=
  ⟨rfl, rfl, rfl⟩

/-- C7.  An Array field declared without `maxLength` defaults its bound to
`u32::MAX = 2^32 - 1`, so its wire length tag is `bitLen (2^32 - 1) = 32`
bits wide — not 5.  (The 5-bit width applies to the width tag of unbounded
Int and Bytes fields, not to arrays.) -/
theorem claim_C7 :
    parse_field [] "xs" (.obj [("type", .str "array"), ("items", .str "bool")])
      = .ok (.array "xs" (2^32 - 1) (.boolean "xs" false) false) ∧
    Field.bits (.array "xs" (2^32 - 1) (.boolean "xs" false) false) = 32 ∧
    bitsUsedBody (.array "xs" (2^32 - 1) (.boolean "xs" false) false) (.arr []) = 32 := by
  refine ⟨?_, ?_, ?_⟩
  · simp +decide [parse_field, jlookup, Json.as_str, Json.as_bool, Json.as_u64,
      BooleanField.new, ArrayField.new]
  · simp +decide [Field.bits]
  · simp +decide [bitsUsedBody, bitsUsedItems, Field.bits]

/-- C7 counterexample: the wire length tag of a `maxLength`-less array is
not 5 bits. -/
theorem claim_C7_counterexample :
    ¬ (Field.bits (.array "xs" (2^32 - 1) (.boolean "xs" false) false) = 5) := by
  simp +decide [Field.bits]

/-- C8.  When the length tag read for a Bytes field exceeds the tail
cursor, the generated decoder returns `NotEnoughBytes` and nothing else:
the wrapped `usize` subtraction puts `start` above the cursor, the range
check fails, and the `None` arm is the error return. -/
theorem claim_C8 {nm : String} {ml : Option Nat} {nl : Bool} {input : List Nat}
    {r r1 : BitReader} {ends length : Nat}
    (hread : DecCtx.read ⟨r, ends⟩ (Field.bits (.bytes nm ml nl))
      = .ok (length, ⟨r1, ends⟩))
    (hgt : ends < length) (hl64 : length < 2^64) (he64 : ends < 2^64) :
    decodeBody (.bytes nm ml nl) input ⟨r, ends⟩ = .error .notEnoughBytes := by
  have hstart := subUsize_gt hgt he64 hl64
  simp only [decodeBody, hread]
  rw [if_neg (by omega)]

/-- C8 witness: a one-byte input whose length tag reads 255 against a tail
cursor of 1. -/
theorem claim_C8_witness :
    (1:Nat) < 255 ∧
    decodeBody (.bytes "x" (some 255) false) [255] ⟨BitReader.new [255], 1⟩
      = .error .notEnoughBytes := by
  have hb : Field.bits (.bytes "x" (some 255) false) = 8 := by
    simp +decide [Field.bits]
  have hread : DecCtx.read ⟨BitReader.new [255], (1:Nat)⟩
      (Field.bits (.bytes "x" (some 255) false))
      = .ok (255, ⟨⟨[255], 8, 0, 56, 8⟩, 1⟩) := by
    rw [hb]
    exact rfl
  exact ⟨by omega, claim_C8 hread (by omega) (by norm_num) (by norm_num)⟩

/-- C9.  `bits() ≤ 255` is not an invariant of constructible fields: eight
bounded Int children of span `2^31` (each 32 bits wide, accepted by
`IntField::new`) give a Record field whose width is `256`.  The generator's
`debug_assert!(bits <= 255)` is violated and the `as u8` header cast would
truncate. -/
theorem claim_C9 :
    IntField.new "c" (some 0) (some 2147483647) false
      = .ok (.int "c" (some 0) (some 2147483647) false) ∧
    RecordField.new "r" c9Fields false = .record "r" c9Fields false ∧
    Field.bits (.record "r" c9Fields false) = 256 ∧ ¬ ((256:Nat) ≤ 255) := by
  refine ⟨by simp [IntField.new], rfl, ?_, by omega⟩
  simp +decide [Field.bits, sumBits, c9Fields]

/-- C10.  For an ASCII identifier that starts with a lowercase letter,
contains no underscore and no two consecutive uppercase letters,
`snake_to_camel_case (camel_to_snake_case s) = s`. -/
theorem claim_C10 {s : List Nat} {c0 : Nat} {rest : List Nat}
    (hs : s = c0 :: rest) (hlow : 97 ≤ c0 ∧ c0 ≤ 122)
    (hascii : ∀ c ∈ s, c < 128) (h95 : ∀ c ∈ s, c ≠ 95)
    (hconsec : List.Chain'
      (fun a b => ¬ (is_uppercase a = true ∧ is_uppercase b = true)) s) :
    snake_to_camel_case (camel_to_snake_case s) = s := by
  subst hs
  have hc0u : is_uppercase c0 = false := by
    simp only [is_uppercase, decide_eq_false_iff_not]
    omega
  have e1 : camel_to_snake_case (c0 :: rest) = c0 :: camel_to_snake_go false rest := by
    simp [camel_to_snake_case, camel_to_snake_go, hc0u]
  rw [e1]
  have hc0 : ¬ (c0 = 95) := by omega
  have e2 : snake_to_camel_case (c0 :: camel_to_snake_go false rest)
      = c0 :: snake_to_camel_go false (camel_to_snake_go false rest) := by
    simp [snake_to_camel_case, snake_to_camel_go, hc0]
  rw [e2, camel_snake_go_round (fun x hx => h95 x (by simp [hx]))]

/-- C10 witness: `helloWorld`. -/
theorem claim_C10_witness :
    (97 ≤ 104 ∧ 104 ≤ 122) ∧
    snake_to_camel_case (camel_to_snake_case
        [104, 101, 108, 108, 111, 87, 111, 114, 108, 100])
      = [104, 101, 108, 108, 111, 87, 111, 114, 108, 100] :=
  ⟨by omega, claim_C10 rfl (by omega) (by decide) (by decide)
    (by simp +decide [List.chain'_cons])⟩

end Quops
